import Mathlib

/-!
Verification of the tracking-and-synthesis lifecycle engine of the
knowledge-loop repository: the escalation store (`src/escalation-tracker.js`),
the tracked-answer store (`src/answer-tracker.js`), the pending-DM /
correction-approval conversation handler (`src/dm-handler.js`), the periodic
correction job (`jobs.js`) and the document block matcher
(`findBlockByContent` in `src/notion.js`).

Statuses are modelled as the literal strings the JavaScript stores.
Timestamps are milliseconds since the epoch, as `Int` (the JavaScript code
stores ISO strings and compares them through `Date`, which is
order-isomorphic to the millisecond values).  Each store is a list of
records mutated in place; `getXById` finds the first record with a given id
and the mutating operations rewrite that first record, exactly as the
JavaScript mutates the object returned by `find`.
-/

namespace KnowledgeLoop

/-- Replace the first list element satisfying `p` by its image under `f`,
leaving everything else unchanged.  This is how the JavaScript mutates the
record returned by `Array.prototype.find`. -/
def updateFirstBy {α : Type} (p : α → Bool) (f : α → α) : List α → List α
  | [] => []
  | x :: rest => if p x then f x :: rest else x :: updateFirstBy p f rest

/-! ### Tracked-answer store (`src/answer-tracker.js`) -/

/-- A tracked FAQ answer record, as built by `trackFaqAnswer`.
`status` ranges over "active", "pending_correction", "corrected",
"processed". -/
structure FaqAnswer where
  id : String
  channel : String
  threadTs : String
  messageTs : String
  productAreaId : String
  originalQuestion : String
  botAnswer : String
  evidence : List String
  ownerUserIds : List String
  kbSourcePageIds : List String
  answeredAt : Int
  status : String
  respondingOwnerIds : List String
  firstResponseAt : Option Int
  processAfter : Option Int
  processedAt : Option Int := none
  correctedAt : Option Int := none
  processInfo : Option String := none
  correctionInfo : Option String := none
  deriving DecidableEq

/-- The record `trackFaqAnswer` pushes onto the store: fresh answers start
in status "active" with no responders and no timer. -/
def newFaqAnswer (id channel threadTs messageTs productAreaId
    originalQuestion botAnswer : String)
    (evidence ownerUserIds kbSourcePageIds : List String)
    (now : Int) : FaqAnswer :=
  { id := id
    channel := channel
    threadTs := threadTs
    messageTs := messageTs
    productAreaId := productAreaId
    originalQuestion := originalQuestion
    botAnswer := botAnswer
    evidence := evidence
    ownerUserIds := ownerUserIds
    kbSourcePageIds := kbSourcePageIds
    answeredAt := now
    status := "active"
    respondingOwnerIds := []
    firstResponseAt := none
    processAfter := none }

/-- Embeds `getFaqAnswerById`. -/
def getFaqAnswerById (store : List FaqAnswer) (id : String) : Option FaqAnswer :=
  store.find? (fun a => a.id == id)

/-- The in-place mutation `recordCorrectionResponse` performs on the found
record: push the responder if absent, then start the timer if this is the
first response (status still "active"). -/
def recordResponseUpdate (userId : String) (delayMs now : Int)
    (a : FaqAnswer) : FaqAnswer :=
  let a1 := if userId ∈ a.respondingOwnerIds then a
    else { a with respondingOwnerIds := a.respondingOwnerIds ++ [userId] }
  if a1.status = "active" then
    { a1 with status := "pending_correction"
              firstResponseAt := some now
              processAfter := some (now + delayMs) }
  else a1

/-- Embeds `recordCorrectionResponse(id, userId, delayMs)`: refuses missing
and terminal records, accumulates the responder, and starts the timer only
on the "active" → "pending_correction" transition. -/
def recordCorrectionResponse (store : List FaqAnswer) (id userId : String)
    (delayMs now : Int) : List FaqAnswer × Bool :=
  match getFaqAnswerById store id with
  | none => (store, false)
  | some answer =>
    if answer.status = "corrected" ∨ answer.status = "processed" then
      (store, false)
    else
      (updateFirstBy (fun a => a.id == id)
        (recordResponseUpdate userId delayMs now) store, true)

/-- Embeds `getAnswersReadyToProcess`. -/
def getAnswersReadyToProcess (store : List FaqAnswer) (now : Int) : List FaqAnswer :=
  store.filter (fun a =>
    a.status == "pending_correction" && a.processAfter.any (fun t => decide (t ≤ now)))

/-- The mutation `markAnswerProcessed` performs on the found record. -/
def processedUpdate (info : Option String) (now : Int) (a : FaqAnswer) : FaqAnswer :=
  { a with status := "processed", processedAt := some now, processInfo := info }

/-- The mutation `markAnswerCorrected` performs on the found record. -/
def correctedUpdate (info : Option String) (now : Int) (a : FaqAnswer) : FaqAnswer :=
  { a with status := "corrected", correctedAt := some now, correctionInfo := info }

/-- Embeds `markAnswerProcessed`: the only rejection is a missing record;
an existing record is overwritten whatever its current status. -/
def markAnswerProcessed (store : List FaqAnswer) (id : String)
    (info : Option String) (now : Int) : List FaqAnswer × Bool :=
  match getFaqAnswerById store id with
  | none => (store, false)
  | some _ =>
    (updateFirstBy (fun a => a.id == id) (processedUpdate info now) store, true)

/-- Embeds `markAnswerCorrected`: same shape as `markAnswerProcessed`. -/
def markAnswerCorrected (store : List FaqAnswer) (id : String)
    (info : Option String) (now : Int) : List FaqAnswer × Bool :=
  match getFaqAnswerById store id with
  | none => (store, false)
  | some _ =>
    (updateFirstBy (fun a => a.id == id) (correctedUpdate info now) store, true)

/-- Embeds `cleanupOldFaqAnswers`: keeps every "active" /
"pending_correction" record, and otherwise keeps the record iff its
`correctedAt || processedAt || answeredAt` timestamp is after the cutoff. -/
def cleanupOldFaqAnswers (store : List FaqAnswer) (maxAgeDays now : Int) :
    List FaqAnswer :=
  let cutoff := now - maxAgeDays * 24 * 60 * 60 * 1000
  store.filter (fun a =>
    if a.status = "active" ∨ a.status = "pending_correction" then true
    else decide (((a.correctedAt <|> a.processedAt).getD a.answeredAt) > cutoff))

/-! ### Escalation store (`src/escalation-tracker.js`) -/

/-- An escalation record, as built by `trackEscalation`.  `status` ranges
over "awaiting_response", "ready_to_synthesize", "completed", "skipped". -/
structure Escalation where
  id : String
  channel : String
  threadTs : String
  messageTs : String
  productAreaId : String
  originalQuestion : String
  ownerUserIds : List String
  escalatedAt : Int
  status : String
  firstResponseAt : Option Int := none
  synthesizeAfter : Option Int := none
  completedAt : Option Int := none
  skippedAt : Option Int := none
  skipReason : Option String := none
  faqUrl : Option String := none
  deriving DecidableEq

/-- The record `trackEscalation` pushes onto the store. -/
def newEscalation (id channel threadTs messageTs productAreaId
    originalQuestion : String) (ownerUserIds : List String)
    (now : Int) : Escalation :=
  { id := id
    channel := channel
    threadTs := threadTs
    messageTs := messageTs
    productAreaId := productAreaId
    originalQuestion := originalQuestion
    ownerUserIds := ownerUserIds
    escalatedAt := now
    status := "awaiting_response" }

/-- Embeds `getEscalationById`. -/
def getEscalationById (store : List Escalation) (id : String) : Option Escalation :=
  store.find? (fun e => e.id == id)

/-- The mutation `recordOwnerResponse` performs on the found record. -/
def ownerResponseUpdate (synthesisDelayMs now : Int) (x : Escalation) : Escalation :=
  { x with status := "ready_to_synthesize"
           firstResponseAt := some now
           synthesizeAfter := some (now + synthesisDelayMs) }

/-- Embeds `recordOwnerResponse`: guarded transition
"awaiting_response" → "ready_to_synthesize", a no-op in any other status. -/
def recordOwnerResponse (store : List Escalation) (id : String)
    (synthesisDelayMs now : Int) : List Escalation × Bool :=
  match getEscalationById store id with
  | none => (store, false)
  | some e =>
    if e.status ≠ "awaiting_response" then (store, false)
    else
      (updateFirstBy (fun x => x.id == id)
        (ownerResponseUpdate synthesisDelayMs now) store, true)

/-- Embeds `getEscalationsReadyToSynthesize`. -/
def getEscalationsReadyToSynthesize (store : List Escalation) (now : Int) :
    List Escalation :=
  store.filter (fun e =>
    e.status == "ready_to_synthesize" && e.synthesizeAfter.any (fun t => decide (t ≤ now)))

/-- The mutation `markEscalationComplete` performs on the found record;
`faqUrl` is stored only when supplied (truthy in the JavaScript). -/
def completeUpdate (faqUrl : Option String) (now : Int) (x : Escalation) : Escalation :=
  let x1 := { x with status := "completed", completedAt := some now }
  match faqUrl with
  | some u => { x1 with faqUrl := some u }
  | none => x1

/-- The mutation `markEscalationSkipped` performs on the found record. -/
def skippedUpdate (reason : String) (now : Int) (x : Escalation) : Escalation :=
  { x with status := "skipped", skippedAt := some now, skipReason := some reason }

/-- Embeds `markEscalationComplete`: overwrites the status of any existing
record. -/
def markEscalationComplete (store : List Escalation) (id : String)
    (faqUrl : Option String) (now : Int) : List Escalation × Bool :=
  match getEscalationById store id with
  | none => (store, false)
  | some _ =>
    (updateFirstBy (fun x => x.id == id) (completeUpdate faqUrl now) store, true)

/-- Embeds `markEscalationSkipped`. -/
def markEscalationSkipped (store : List Escalation) (id reason : String)
    (now : Int) : List Escalation × Bool :=
  match getEscalationById store id with
  | none => (store, false)
  | some _ =>
    (updateFirstBy (fun x => x.id == id) (skippedUpdate reason now) store, true)

/-- Embeds `cleanupOldEscalations`: the exemption guard tests the literal
status string "pending" (which no operation of the store ever assigns);
every other record is kept iff its `completedAt || skippedAt || escalatedAt`
timestamp is after the cutoff. -/
def cleanupOldEscalations (store : List Escalation) (maxAgeDays now : Int) :
    List Escalation :=
  let cutoff := now - maxAgeDays * 24 * 60 * 60 * 1000
  store.filter (fun e =>
    if e.status = "pending" then true
    else decide (((e.completedAt <|> e.skippedAt).getD e.escalatedAt) > cutoff))

/-! ### Operation traces over the two stores

The spec's monotonic-status invariant quantifies over arbitrary sequences of
store operations, so we package the mutating operations of each store as an
op type together with a run function. -/

/-- One mutating operation of the tracked-answer store. -/
inductive AnsOp where
  | recordResponse (id userId : String) (delayMs now : Int)
  | markProcessed (id : String) (info : Option String) (now : Int)
  | markCorrected (id : String) (info : Option String) (now : Int)
  deriving DecidableEq

/-- Apply one tracked-answer operation (discarding the returned Bool). -/
def ansApply (store : List FaqAnswer) : AnsOp → List FaqAnswer
  | .recordResponse id userId d now => (recordCorrectionResponse store id userId d now).1
  | .markProcessed id info now => (markAnswerProcessed store id info now).1
  | .markCorrected id info now => (markAnswerCorrected store id info now).1

/-- Run a sequence of tracked-answer operations. -/
def ansRun (store : List FaqAnswer) : List AnsOp → List FaqAnswer
  | [] => store
  | op :: ops => ansRun (ansApply store op) ops

/-- One mutating operation of the escalation store. -/
inductive EscOp where
  | recordResponse (id : String) (synthesisDelayMs now : Int)
  | complete (id : String) (faqUrl : Option String) (now : Int)
  | skip (id reason : String) (now : Int)
  deriving DecidableEq

/-- Apply one escalation operation (discarding the returned Bool). -/
def escApply (store : List Escalation) : EscOp → List Escalation
  | .recordResponse id d now => (recordOwnerResponse store id d now).1
  | .complete id u now => (markEscalationComplete store id u now).1
  | .skip id r now => (markEscalationSkipped store id r now).1

/-- Run a sequence of escalation operations. -/
def escRun (store : List Escalation) : List EscOp → List Escalation
  | [] => store
  | op :: ops => escRun (escApply store op) ops

/-- Position of a status string along the lifecycle chains
`awaiting_response → ready_to_synthesize → (completed | skipped)` and
`active → pending_correction → (corrected | processed)`. -/
def statusRank (s : String) : Nat :=
  if s = "ready_to_synthesize" ∨ s = "pending_correction" then 1
  else if s = "completed" ∨ s = "skipped" ∨ s = "corrected" ∨ s = "processed" then 2
  else 0

/-- A status is terminal when it is one of the four terminal strings. -/
def terminalStatus (s : String) : Prop :=
  s = "completed" ∨ s = "skipped" ∨ s = "corrected" ∨ s = "processed"

/-! ### String primitives

`toLowerCase`, `trim` and whitespace collapsing are modelled on the
character list underlying the string, so that they evaluate on concrete
inputs. -/

/-- JavaScript `toLowerCase` (ASCII case mapping, like `Char.toLower`). -/
def jsToLower (s : String) : String := String.mk (s.data.map Char.toLower)

/-- JavaScript `trim`: strip whitespace from both ends. -/
def jsTrim (s : String) : String :=
  String.mk
    (((s.data.dropWhile Char.isWhitespace).reverse.dropWhile
        Char.isWhitespace).reverse)

/-! ### Pending-DM store and correction-approval flow (`src/dm-handler.js`) -/

/-- The `partialData` payload a "faq_correction_approval" Pending DM
carries (built in `handleFaqCorrection` in `jobs.js`). -/
structure CorrectionData where
  correctionId : String
  blockId : Option String
  blockUrl : Option String
  notionPageId : String
  subPageId : Option String
  suggestedUpdate : String
  originalQuestion : String
  areaName : String
  channelName : Option String
  deriving DecidableEq

/-- One entry of the `pendingDmActions` map. -/
structure PendingDm where
  intent : String
  partialData : CorrectionData
  expiresAt : Int
  deriving DecidableEq

/-- Ten minutes, the absolute Pending-DM time-to-live. -/
def PENDING_DM_EXPIRY_MS : Int := 10 * 60 * 1000

/-- The conversation-handler state: the per-user `pendingDmActions` map
(an association list with at most one entry per user) and the
applied-correction marker set `processedCorrections`. -/
structure DmState where
  pendingDmActions : List (String × PendingDm)
  processedCorrections : List String
  deriving DecidableEq

/-- Raw map read (`pendingDmActions.get`), without the expiry check. -/
def lookupPendingDm (s : DmState) (userId : String) : Option PendingDm :=
  (s.pendingDmActions.find? (fun p => p.1 == userId)).map Prod.snd

/-- Remove a user's map entry (`pendingDmActions.delete`). -/
def erasePending (m : List (String × PendingDm)) (userId : String) :
    List (String × PendingDm) :=
  m.filter (fun p => !(p.1 == userId))

/-- Embeds `getPendingDm`: lazy expiry — a lookup strictly after
`expiresAt` discards the entry and reports absence. -/
def getPendingDm (s : DmState) (userId : String) (now : Int) :
    Option PendingDm × DmState :=
  match lookupPendingDm s userId with
  | none => (none, s)
  | some pending =>
    if now > pending.expiresAt then
      (none, { s with pendingDmActions := erasePending s.pendingDmActions userId })
    else (some pending, s)

/-- Embeds `setPendingDm`: stores the entry under the user's key with a
fresh `expiresAt` ten minutes from now. -/
def setPendingDm (s : DmState) (userId intent : String) (d : CorrectionData)
    (now : Int) : DmState :=
  { s with pendingDmActions :=
      erasePending s.pendingDmActions userId
        ++ [(userId, { intent := intent, partialData := d,
                       expiresAt := now + PENDING_DM_EXPIRY_MS })] }

/-- Embeds `clearPendingDm`. -/
def clearPendingDm (s : DmState) (userId : String) : DmState :=
  { s with pendingDmActions := erasePending s.pendingDmActions userId }

/-- Embeds `clearPendingDmsForCorrection`: drop every user's entry whose
intent is "faq_correction_approval" for this correction id. -/
def clearPendingDmsForCorrection (s : DmState) (correctionId : String) : DmState :=
  let keep := fun (p : String × PendingDm) =>
    !(p.2.intent == "faq_correction_approval"
      && p.2.partialData.correctionId == correctionId)
  { s with pendingDmActions := s.pendingDmActions.filter keep }

/-- A character the JavaScript regex class backslash-w matches. -/
def wordChar (c : Char) : Bool := c.isAlphanum || c == '_'

/-- Anchored alternation followed by a word boundary: `ph` is a prefix of
`l` and the next character (if any) is not a word character. -/
def matchWordPrefix (l ph : String) : Bool :=
  ph.toList.isPrefixOf l.toList
    && (match l.toList.drop ph.toList.length with
        | [] => true
        | c :: _ => !wordChar c)

/-- The affirmative phrase set of `continuePendingDm`. -/
def approvalPhrases : List String :=
  ["yes", "yep", "yeah", "yea", "sure", "approved", "lgtm", "go for it",
   "do it", "go ahead", "ship it", "looks good", "ok", "okay"]

/-- The negative phrase set of `continuePendingDm`. -/
def rejectionPhrases : List String :=
  ["no", "nope", "cancel", "nevermind", "never mind", "don\x27t update",
   "stop", "reject", "skip"]

/-- Embeds the `isApproval` regex test on the lowercased trimmed text. -/
def isApproval (lower : String) : Bool :=
  approvalPhrases.any (fun ph => matchWordPrefix lower ph)

/-- Embeds the `isRejection` regex test on the lowercased trimmed text. -/
def isRejection (lower : String) : Bool :=
  rejectionPhrases.any (fun ph => matchWordPrefix lower ph)

/-- Outcome of the external `updateFaqBlock` call: the new block url, or a
thrown error. -/
inductive UpdateOutcome where
  | ok (blockUrl : String)
  | threw
  deriving DecidableEq

/-- Outcome of the external `reviseSuggestedUpdate` call: returned text
(empty string for a falsy result), or a thrown error. -/
inductive ReviseOutcome where
  | returned (text : String)
  | threw
  deriving DecidableEq

/-- The reply the handler posts back to the user's DM channel. -/
inductive DmReply where
  | alreadyApplied
  | cannotAutoApply
  | updated (blockUrl : String)
  | updateFailed
  | rejected
  | revisePrompt (text : String)
  | reviseUnusable
  | reviseFailed
  | noPending
  | otherFlow
  deriving DecidableEq

/-- Result of handling one inbound DM: the new state, the reply posted,
and the correction ids for which `updateFaqBlock` succeeded in this step
(empty or a singleton). -/
structure DmStepResult where
  state : DmState
  reply : DmReply
  mutations : List String
  deriving DecidableEq

/-- Embeds the "faq_correction_approval" branch of `continuePendingDm`:
the applied-correction marker is consulted first; an approval with a known
block either succeeds (marker extended, own and sibling Pending DMs
cleared) or fails (apology, only the failing user's Pending DM cleared);
a rejection clears the user's Pending DM; anything else is revision
feedback (the Pending DM is re-stored with the revised text, or left
untouched when revision fails). -/
def continueCorrectionDm (s : DmState) (userId text : String)
    (pending : PendingDm) (upd : UpdateOutcome) (rev : ReviseOutcome)
    (now : Int) : DmStepResult :=
  let d := pending.partialData
  if d.correctionId ∈ s.processedCorrections then
    { state := clearPendingDm s userId, reply := .alreadyApplied, mutations := [] }
  else
    let lower := jsTrim (jsToLower text)
    if isApproval lower then
      match d.blockId with
      | none =>
        { state := clearPendingDmsForCorrection (clearPendingDm s userId) d.correctionId
          reply := .cannotAutoApply
          mutations := [] }
      | some _ =>
        match upd with
        | .ok url =>
          let s1 := { s with processedCorrections :=
                        s.processedCorrections ++ [d.correctionId] }
          { state := clearPendingDmsForCorrection (clearPendingDm s1 userId) d.correctionId
            reply := .updated url
            mutations := [d.correctionId] }
        | .threw =>
          { state := clearPendingDm s userId, reply := .updateFailed, mutations := [] }
    else if isRejection lower then
      { state := clearPendingDm s userId, reply := .rejected, mutations := [] }
    else
      match rev with
      | .returned t =>
        if t = "" then { state := s, reply := .reviseUnusable, mutations := [] }
        else
          { state := setPendingDm s userId pending.intent
                       { d with suggestedUpdate := t } now
            reply := .revisePrompt t
            mutations := [] }
      | .threw => { state := s, reply := .reviseFailed, mutations := [] }

/-- Embeds the pending-DM dispatch of the message handler: look up the
user's Pending DM with lazy expiry, then continue the correction flow.
Flows for the other intents (`add_knowledge_area` and the fresh-intent
handlers) never touch `processedCorrections`, never call `updateFaqBlock`
and never modify another user's entry, so they are abstracted as
`otherFlow`. -/
def dmMessageStep (s : DmState) (userId text : String) (upd : UpdateOutcome)
    (rev : ReviseOutcome) (now : Int) : DmStepResult :=
  match getPendingDm s userId now with
  | (none, s1) => { state := s1, reply := .noPending, mutations := [] }
  | (some pending, s1) =>
    if pending.intent = "faq_correction_approval" then
      continueCorrectionDm s1 userId text pending upd rev now
    else
      { state := s1, reply := .otherFlow, mutations := [] }

/-- One inbound DM together with the outcomes of the external calls the
handler would make while processing it. -/
structure DmInput where
  userId : String
  text : String
  upd : UpdateOutcome
  rev : ReviseOutcome
  now : Int
  deriving DecidableEq

/-- Run a sequence of inbound DMs, collecting every successful document
mutation's correction id. -/
def dmRun (s : DmState) : List DmInput → DmState × List String
  | [] => (s, [])
  | i :: is =>
    let r := dmMessageStep s i.userId i.text i.upd i.rev i.now
    let rest := dmRun r.state is
    (rest.1, r.mutations ++ rest.2)

/-! ### Periodic correction job (`handleFaqCorrection` in `jobs.js`) -/

/-- A roster member of a knowledge area (`knowledge-areas.js`). -/
structure Member where
  userId : String
  deriving DecidableEq

/-- A knowledge area as the directory stores it. -/
structure KnowledgeArea where
  id : String
  name : String
  notionPageId : String
  ownerUserIds : List String
  leads : List Member
  deriving DecidableEq

/-- Embeds `getKnowledgeAreaById`. -/
def getKnowledgeAreaById (areas : List KnowledgeArea) (id : String) :
    Option KnowledgeArea :=
  areas.find? (fun a => a.id == id)

/-- Embeds `getLeadUserIds`. -/
def getLeadUserIds (areas : List KnowledgeArea) (areaId : String) : List String :=
  match getKnowledgeAreaById areas areaId with
  | none => []
  | some area => area.leads.map Member.userId

/-- The `generalFaq` part of the configuration that `handleFaqCorrection`
reads. -/
structure JobsConfig where
  generalFaqAdminUserIds : List String
  generalFaqNotionPageUrl : String
  deriving DecidableEq

/-- What the block matcher reports for a page (blockId and blockUrl of the
best match). -/
structure BlockRef where
  blockId : String
  blockUrl : String
  deriving DecidableEq

/-- First KB sub-page on which the block matcher finds the evidence,
together with the match (errors while searching a sub-page are skipped,
like the per-page try/catch). -/
def firstHit (findBlock : String → Option BlockRef) :
    List String → Option (String × BlockRef)
  | [] => none
  | p :: rest =>
    match findBlock p with
    | some bi => some (p, bi)
    | none => firstHit findBlock rest

/-- The id of the catch-all general-FAQ area. -/
def GENERAL_FAQ_AREA_ID : String := "general-faq"

/-- The `partialData` payload `handleFaqCorrection` stores on each
Pending DM it opens. -/
def correctionDmData (ta : FaqAnswer) (suggestedUpdate areaName : String)
    (channelName : Option String) (notionPageId : String)
    (blockInfo : Option BlockRef) (subPageId : Option String) : CorrectionData :=
  { correctionId := ta.id
    blockId := blockInfo.map BlockRef.blockId
    blockUrl := blockInfo.map BlockRef.blockUrl
    notionPageId := notionPageId
    subPageId := subPageId
    suggestedUpdate := suggestedUpdate
    originalQuestion := ta.originalQuestion
    areaName := areaName
    channelName := channelName }

/-- The DM delivery loop of `handleFaqCorrection`: for each recipient in
order, deliver the DM and, when delivery succeeds, store the
"faq_correction_approval" Pending DM under that user's key. -/
def sendCorrectionDms (s : DmState) (dmOk : String → Bool)
    (leadUserIds : List String) (data : CorrectionData) (now : Int) : DmState :=
  leadUserIds.foldl
    (fun st leadId =>
      if dmOk leadId then
        setPendingDm st leadId ("faq_correction_approval") data now
      else st)
    s

/-- Embeds `handleFaqCorrection`: choose the DM recipients (for the
general FAQ: the responding owners if any, else the configured admins;
for a knowledge area: the area's lead users), locate the FAQ block, and
open one "faq_correction_approval" Pending DM — carrying the correction
id, block reference, proposed text and context — per recipient to whom
the direct message was delivered (`dmOk`).  The external block matcher
and DM delivery are parameters. -/
def handleFaqCorrection (s : DmState) (cfg : JobsConfig)
    (areas : List KnowledgeArea) (findBlock : String → Option BlockRef)
    (dmOk : String → Bool) (ta : FaqAnswer) (suggestedUpdate areaName : String)
    (channelName : Option String) (now : Int) : DmState :=
  let isGeneralFaq := ta.productAreaId = GENERAL_FAQ_AREA_ID
  let chosen : Option (String × List String × Option BlockRef) :=
    if isGeneralFaq then
      let leadUserIds := if ta.respondingOwnerIds ≠ [] then ta.respondingOwnerIds
        else cfg.generalFaqAdminUserIds
      let subSearch := if ta.kbSourcePageIds ≠ [] ∧ ta.evidence ≠ [] then
          firstHit findBlock ta.kbSourcePageIds
        else none
      match subSearch with
      | some (p, bi) => some (p, leadUserIds, some bi)
      | none => some (cfg.generalFaqNotionPageUrl, leadUserIds, none)
    else
      match getKnowledgeAreaById areas ta.productAreaId with
      | none => none
      | some area => some (area.notionPageId, getLeadUserIds areas ta.productAreaId, none)
  match chosen with
  | none => s
  | some (notionPageId, leadUserIds, blockInfo0) =>
    if leadUserIds = [] then s
    else
      let blockInfo := match blockInfo0 with
        | some bi => some bi
        | none => if ta.evidence ≠ [] then findBlock notionPageId else none
      sendCorrectionDms s dmOk leadUserIds
        (correctionDmData ta suggestedUpdate areaName channelName notionPageId
          blockInfo (if isGeneralFaq then some notionPageId else none))
        now

/-- Candidate approvers as the specification words them: the distinct
responding owners if any exist, else the configured fallback group.  Kept
separate from the embedding of `handleFaqCorrection` so the two can be
compared. -/
def specCandidateApprovers (ta : FaqAnswer) (fallback : List String) :
    List String :=
  if ta.respondingOwnerIds ≠ [] then ta.respondingOwnerIds.dedup else fallback

/-! ### Document block matcher (`findBlockByContent` in `src/notion.js`) -/

/-- A Notion block: its id, its own text (`getBlockText`), and its child
blocks (`has_children` holds exactly when the child list is nonempty). -/
inductive NBlock : Type where
  | mk (id text : String) (children : List NBlock)

def NBlock.id : NBlock → String
  | .mk i _ _ => i

def NBlock.text : NBlock → String
  | .mk _ t _ => t

def NBlock.children : NBlock → List NBlock
  | .mk _ _ cs => cs

/-- Whitespace-run collapsing, the `replace` of `normalizeText`: every
maximal whitespace run becomes one space (`inWs` records whether the
previous character was part of a run). -/
def collapseWsAux : Bool → List Char → List Char
  | _, [] => []
  | inWs, c :: cs =>
    if c.isWhitespace then
      (if inWs then [] else [' ']) ++ collapseWsAux true cs
    else c :: collapseWsAux false cs

/-- Embeds `normalizeText`: lowercase, collapse every whitespace run to a
single space, trim. -/
def normalizeText (s : String) : String :=
  jsTrim (String.mk (collapseWsAux false (jsToLower s).data))

/-- Containment of a character list in another, by scanning suffixes. -/
def containsSub (needle : List Char) : List Char → Bool
  | [] => needle.isEmpty
  | c :: rest => needle.isPrefixOf (c :: rest) || containsSub needle rest

/-- Substring containment, `String.prototype.includes`. -/
def strIncludes (haystack needle : String) : Bool :=
  containsSub needle.data haystack.data

/-- What `findBlockByContent` tracks for the best match so far. -/
structure MatchResult where
  blockId : String
  matchedText : String
  searchText : String
  deriving DecidableEq

/-- A score of the matcher: the fraction `numerator / denominator`, kept
unreduced (the JavaScript stores the floating-point quotient; here the
exact fraction is kept and compared exactly). -/
abbrev Score := Nat × Nat

/-- Exact comparison `a > b` of two fractional scores, by
cross-multiplication (all denominators in play are positive). -/
def scoreGt (a b : Score) : Bool := decide (a.1 * b.2 > b.1 * a.2)

/-- The zero initial score `bestMatchScore = 0`. -/
def zeroScore : Score := (0, 1)

/-- The fixed child-match score 0.9. -/
def childScore : Score := (9, 10)

/-- The inner loop over the normalized search texts: a block containing a
snippet scores `snippet length / block text length`, and a strictly
better score replaces the best match. -/
def considerBlock (bid blockText nbt : String) (sts : List String)
    (acc : Option MatchResult × Score) : Option MatchResult × Score :=
  sts.foldl
    (fun a st =>
      if strIncludes nbt st then
        let score : Score := (st.length, nbt.length)
        if scoreGt score a.2 then
          (some { blockId := bid, matchedText := blockText, searchText := st }, score)
        else a
      else a)
    acc

mutual
/-- One iteration of the block loop of `findBlockByContent`: a block with
empty text is skipped entirely (children included); otherwise the block's
own text is matched against every snippet, and then a recursive search of
the children — which, when it finds anything, competes with fixed score
9/10 and reports this (parent) block's id. -/
def scanBlockStep (sts : List String) : NBlock → Option MatchResult × Score →
    Option MatchResult × Score
  | .mk i t cs, acc =>
    if t = "" then acc
    else
      let nbt := normalizeText t
      let acc2 := considerBlock i t nbt sts acc
      if cs.isEmpty then acc2
      else
        match (scanForest sts cs (none, zeroScore)).1 with
        | some cr =>
          if scoreGt childScore acc2.2 then
            (some { blockId := i, matchedText := cr.matchedText,
                    searchText := cr.searchText }, childScore)
          else acc2
        | none => acc2

/-- The block loop of `findBlockByContent` over a list of sibling blocks,
threading the best match so far. -/
def scanForest (sts : List String) : List NBlock → Option MatchResult × Score →
    Option MatchResult × Score
  | [], acc => acc
  | b :: rest, acc => scanForest sts rest (scanBlockStep sts b acc)
end

/-- Embeds `findBlockByContent` on an already-fetched block forest: the
search texts are normalized and empty ones dropped; with nothing left the
result is null; otherwise the best match of the forest scan. -/
def findBlockByContent (blocks : List NBlock) (searchTexts : List String) :
    Option MatchResult :=
  let nsts := (searchTexts.map normalizeText).filter (fun s => s ≠ "")
  if nsts = [] then none
  else (scanForest nsts blocks (none, zeroScore)).1

mutual
/-- Whether the scan can see a match inside one block: the block matches
directly, or a match lies underneath it (a block with empty raw text
hides its whole subtree, exactly as in the scan). -/
def treeHasMatch (sts : List String) : NBlock → Bool
  | .mk _ t cs =>
    if t = "" then false
    else (sts.any (fun st => strIncludes (normalizeText t) st))
         || forestHasMatch sts cs

/-- Whether the scan can see a match somewhere in the forest. -/
def forestHasMatch (sts : List String) : List NBlock → Bool
  | [] => false
  | b :: rest => treeHasMatch sts b || forestHasMatch sts rest
end

mutual
/-- A block together with every block nested beneath it. -/
def blockSubBlocks : NBlock → List NBlock
  | .mk i t cs => .mk i t cs :: allBlocks cs

/-- Every block of a forest, nested ones included. -/
def allBlocks : List NBlock → List NBlock
  | [] => []
  | b :: rest => blockSubBlocks b ++ allBlocks rest
end

/-! ### Sample records used by the concrete instances -/

def escA : Escalation :=
  newEscalation ("e1") ("C1") ("T1") ("M1") ("area1") ("q") ([]) 0

def ansA : FaqAnswer :=
  newFaqAnswer ("a1") ("C1") ("T1") ("M1") ("area1") ("q") ("ans")
    ([("ev")]) ([]) ([]) 0

def ansCorrected : FaqAnswer := { ansA with status := "corrected" }

def corrData : CorrectionData :=
  { correctionId := "c1"
    blockId := some ("b1")
    blockUrl := some ("u1")
    notionPageId := "p1"
    subPageId := none
    suggestedUpdate := "new text"
    originalQuestion := "q"
    areaName := "Area"
    channelName := none }

def corrPending : PendingDm :=
  { intent := "faq_correction_approval", partialData := corrData, expiresAt := 1000 }

def dmS0 : DmState :=
  { pendingDmActions := [(("u1"), corrPending), (("u2"), corrPending)]
    processedCorrections := [] }

def areaX : KnowledgeArea :=
  { id := "areaX", name := "Area X", notionPageId := "pageX"
    ownerUserIds := ["resp1"], leads := [{ userId := "lead1" }] }

def cfg0 : JobsConfig :=
  { generalFaqAdminUserIds := ["admin1", "admin2"]
    generalFaqNotionPageUrl := "gfp" }

def taArea : FaqAnswer :=
  { ansA with productAreaId := "areaX"
              respondingOwnerIds := ["resp1"]
              status := "pending_correction" }

def taGeneral : FaqAnswer :=
  { ansA with productAreaId := "general-faq"
              respondingOwnerIds := ["resp1"]
              status := "pending_correction" }

def leafB : NBlock := .mk ("leaf") ("the answer is 42") []

def midB : NBlock := .mk ("mid") ("container") [leafB]

def topB : NBlock := .mk ("top") ("top section") [midB]

def otherTopB : NBlock := .mk ("other") ("unrelated") []

def dmEmpty : DmState := { pendingDmActions := [], processedCorrections := [] }

/-! ### Lookup after update -/

theorem getFaqAnswerById_update_self (id : String) (f : FaqAnswer → FaqAnswer)
    (hf : ∀ a, (f a).id = a.id) (store : List FaqAnswer) :
    getFaqAnswerById (updateFirstBy (fun a => a.id == id) f store) id
      = (getFaqAnswerById store id).map f := by
  induction store with
  | nil => rfl
  | cons x rest ih =>
    cases hx : (x.id == id) with
    | true =>
      have hfb : ((f x).id == id) = true := by rw [hf x]; exact hx
      simp [getFaqAnswerById, updateFirstBy, List.find?_cons, hx, hfb]
    | false =>
      simp only [getFaqAnswerById] at ih
      simp [getFaqAnswerById, updateFirstBy, List.find?_cons, hx, ih]

theorem getFaqAnswerById_update_other (id tgt : String) (hne : tgt ≠ id)
    (f : FaqAnswer → FaqAnswer) (hf : ∀ a, (f a).id = a.id)
    (store : List FaqAnswer) :
    getFaqAnswerById (updateFirstBy (fun a => a.id == tgt) f store) id
      = getFaqAnswerById store id := by
  induction store with
  | nil => rfl
  | cons x rest ih =>
    cases hx : (x.id == tgt) with
    | true =>
      have hxt : x.id = tgt := by simpa using hx
      have hb2 : (x.id == id) = false := by rw [hxt]; simpa using hne
      have hb3 : ((f x).id == id) = false := by rw [hf x, hxt]; simpa using hne
      simp [getFaqAnswerById, updateFirstBy, List.find?_cons, hx, hb2, hb3]
    | false =>
      simp only [getFaqAnswerById] at ih
      cases hxi : (x.id == id) with
      | true => simp [getFaqAnswerById, updateFirstBy, List.find?_cons, hx, hxi]
      | false => simp [getFaqAnswerById, updateFirstBy, List.find?_cons, hx, hxi, ih]

theorem getEscalationById_update_self (id : String) (f : Escalation → Escalation)
    (hf : ∀ e, (f e).id = e.id) (store : List Escalation) :
    getEscalationById (updateFirstBy (fun e => e.id == id) f store) id
      = (getEscalationById store id).map f := by
  induction store with
  | nil => rfl
  | cons x rest ih =>
    cases hx : (x.id == id) with
    | true =>
      have hfb : ((f x).id == id) = true := by rw [hf x]; exact hx
      simp [getEscalationById, updateFirstBy, List.find?_cons, hx, hfb]
    | false =>
      simp only [getEscalationById] at ih
      simp [getEscalationById, updateFirstBy, List.find?_cons, hx, ih]

theorem getEscalationById_update_other (id tgt : String) (hne : tgt ≠ id)
    (f : Escalation → Escalation) (hf : ∀ e, (f e).id = e.id)
    (store : List Escalation) :
    getEscalationById (updateFirstBy (fun e => e.id == tgt) f store) id
      = getEscalationById store id := by
  induction store with
  | nil => rfl
  | cons x rest ih =>
    cases hx : (x.id == tgt) with
    | true =>
      have hxt : x.id = tgt := by simpa using hx
      have hb2 : (x.id == id) = false := by rw [hxt]; simpa using hne
      have hb3 : ((f x).id == id) = false := by rw [hf x, hxt]; simpa using hne
      simp [getEscalationById, updateFirstBy, List.find?_cons, hx, hb2, hb3]
    | false =>
      simp only [getEscalationById] at ih
      cases hxi : (x.id == id) with
      | true => simp [getEscalationById, updateFirstBy, List.find?_cons, hx, hxi]
      | false => simp [getEscalationById, updateFirstBy, List.find?_cons, hx, hxi, ih]

/-! ### Field lemmas for the update functions -/

theorem statusRank_le_two (s : String) : statusRank s ≤ 2 := by
  unfold statusRank
  split_ifs <;> omega

theorem recordResponseUpdate_id (u : String) (d now : Int) (a : FaqAnswer) :
    (recordResponseUpdate u d now a).id = a.id := by
  unfold recordResponseUpdate
  by_cases h1 : u ∈ a.respondingOwnerIds <;> simp [h1] <;> split_ifs <;> rfl

theorem recordResponseUpdate_active (u : String) (d now : Int) (a : FaqAnswer)
    (h : a.status = "active") :
    recordResponseUpdate u d now a =
      { a with
          respondingOwnerIds :=
            if u ∈ a.respondingOwnerIds then a.respondingOwnerIds
            else a.respondingOwnerIds ++ [u]
          status := "pending_correction"
          firstResponseAt := some now
          processAfter := some (now + d) } := by
  unfold recordResponseUpdate
  by_cases h1 : u ∈ a.respondingOwnerIds <;> simp [h1, h]

theorem recordResponseUpdate_not_active (u : String) (d now : Int) (a : FaqAnswer)
    (h : ¬ a.status = "active") :
    recordResponseUpdate u d now a =
      { a with
          respondingOwnerIds :=
            if u ∈ a.respondingOwnerIds then a.respondingOwnerIds
            else a.respondingOwnerIds ++ [u] } := by
  unfold recordResponseUpdate
  by_cases h1 : u ∈ a.respondingOwnerIds <;> simp [h1, h]

theorem processedUpdate_id (info : Option String) (now : Int) (a : FaqAnswer) :
    (processedUpdate info now a).id = a.id := rfl

theorem correctedUpdate_id (info : Option String) (now : Int) (a : FaqAnswer) :
    (correctedUpdate info now a).id = a.id := rfl

theorem ownerResponseUpdate_id (d now : Int) (x : Escalation) :
    (ownerResponseUpdate d now x).id = x.id := rfl

theorem completeUpdate_id (url : Option String) (now : Int) (x : Escalation) :
    (completeUpdate url now x).id = x.id := by
  unfold completeUpdate
  cases url <;> rfl

theorem completeUpdate_status (url : Option String) (now : Int) (x : Escalation) :
    (completeUpdate url now x).status = "completed" := by
  unfold completeUpdate
  cases url <;> rfl

theorem skippedUpdate_id (reason : String) (now : Int) (x : Escalation) :
    (skippedUpdate reason now x).id = x.id := rfl

/-! ### Single-operation case lemmas -/

theorem recordCorrectionResponse_missing (store : List FaqAnswer) (id u : String)
    (d now : Int) (h : getFaqAnswerById store id = none) :
    recordCorrectionResponse store id u d now = (store, false) := by
  simp [recordCorrectionResponse, h]

theorem recordCorrectionResponse_terminal (store : List FaqAnswer) (id u : String)
    (d now : Int) (a : FaqAnswer) (ha : getFaqAnswerById store id = some a)
    (hterm : a.status = "corrected" ∨ a.status = "processed") :
    recordCorrectionResponse store id u d now = (store, false) := by
  simp [recordCorrectionResponse, ha, hterm]

theorem recordCorrectionResponse_live (store : List FaqAnswer) (id u : String)
    (d now : Int) (a : FaqAnswer) (ha : getFaqAnswerById store id = some a)
    (hterm : ¬ (a.status = "corrected" ∨ a.status = "processed")) :
    recordCorrectionResponse store id u d now =
      (updateFirstBy (fun x => x.id == id) (recordResponseUpdate u d now) store,
       true) := by
  simp [recordCorrectionResponse, ha, hterm]

theorem recordCorrectionResponse_find_after (store : List FaqAnswer) (id u : String)
    (d now : Int) (a : FaqAnswer) (ha : getFaqAnswerById store id = some a)
    (hterm : ¬ (a.status = "corrected" ∨ a.status = "processed")) :
    getFaqAnswerById (recordCorrectionResponse store id u d now).1 id =
      some (recordResponseUpdate u d now a) := by
  rw [recordCorrectionResponse_live store id u d now a ha hterm]
  rw [show (updateFirstBy (fun x => x.id == id) (recordResponseUpdate u d now) store,
        true).1 = updateFirstBy (fun x => x.id == id) (recordResponseUpdate u d now) store
      from rfl]
  rw [getFaqAnswerById_update_self id _ (recordResponseUpdate_id u d now) store, ha]
  rfl

theorem markAnswerProcessed_find_after (store : List FaqAnswer) (id : String)
    (info : Option String) (now : Int) (a : FaqAnswer)
    (ha : getFaqAnswerById store id = some a) :
    getFaqAnswerById (markAnswerProcessed store id info now).1 id =
      some (processedUpdate info now a) := by
  simp only [markAnswerProcessed, ha]
  rw [getFaqAnswerById_update_self id _ (processedUpdate_id info now) store, ha]
  rfl

theorem markAnswerCorrected_find_after (store : List FaqAnswer) (id : String)
    (info : Option String) (now : Int) (a : FaqAnswer)
    (ha : getFaqAnswerById store id = some a) :
    getFaqAnswerById (markAnswerCorrected store id info now).1 id =
      some (correctedUpdate info now a) := by
  simp only [markAnswerCorrected, ha]
  rw [getFaqAnswerById_update_self id _ (correctedUpdate_id info now) store, ha]
  rfl

/-! ### Status rank never decreases, operation by operation -/

theorem ansApply_find_mono (store : List FaqAnswer) (op : AnsOp) (id : String)
    (a : FaqAnswer) (ha : getFaqAnswerById store id = some a) :
    ∃ b, getFaqAnswerById (ansApply store op) id = some b ∧
      statusRank a.status ≤ statusRank b.status := by
  cases op with
  | recordResponse tgt u d now =>
    show ∃ b, getFaqAnswerById (recordCorrectionResponse store tgt u d now).1 id
        = some b ∧ _
    cases htgt : getFaqAnswerById store tgt with
    | none =>
      rw [recordCorrectionResponse_missing store tgt u d now htgt]
      exact ⟨a, ha, le_rfl⟩
    | some e =>
      by_cases hterm : e.status = "corrected" ∨ e.status = "processed"
      · rw [recordCorrectionResponse_terminal store tgt u d now e htgt hterm]
        exact ⟨a, ha, le_rfl⟩
      · by_cases heq : tgt = id
        · subst heq
          rw [ha] at htgt
          obtain rfl : e = a := (Option.some.inj htgt).symm
          refine ⟨recordResponseUpdate u d now e, ?_, ?_⟩
          · exact recordCorrectionResponse_find_after store tgt u d now e ha hterm
          · by_cases hact : e.status = "active"
            · rw [recordResponseUpdate_active u d now e hact, hact]
              exact (by decide :
                statusRank ("active") ≤ statusRank ("pending_correction"))
            · rw [recordResponseUpdate_not_active u d now e hact]
        · rw [recordCorrectionResponse_live store tgt u d now e htgt hterm]
          refine ⟨a, ?_, le_rfl⟩
          exact (getFaqAnswerById_update_other id tgt heq _
            (recordResponseUpdate_id u d now) store).trans ha
  | markProcessed tgt info now =>
    show ∃ b, getFaqAnswerById (markAnswerProcessed store tgt info now).1 id
        = some b ∧ _
    cases htgt : getFaqAnswerById store tgt with
    | none =>
      simp only [markAnswerProcessed, htgt]
      exact ⟨a, ha, le_rfl⟩
    | some e =>
      by_cases heq : tgt = id
      · subst heq
        rw [ha] at htgt
        obtain rfl : e = a := (Option.some.inj htgt).symm
        refine ⟨processedUpdate info now e, ?_, ?_⟩
        · exact markAnswerProcessed_find_after store tgt info now e ha
        · exact le_of_le_of_eq (statusRank_le_two e.status)
            (by decide : (2 : Nat) = statusRank ("processed"))
      · simp only [markAnswerProcessed, htgt]
        refine ⟨a, ?_, le_rfl⟩
        exact (getFaqAnswerById_update_other id tgt heq _
          (processedUpdate_id info now) store).trans ha
  | markCorrected tgt info now =>
    show ∃ b, getFaqAnswerById (markAnswerCorrected store tgt info now).1 id
        = some b ∧ _
    cases htgt : getFaqAnswerById store tgt with
    | none =>
      simp only [markAnswerCorrected, htgt]
      exact ⟨a, ha, le_rfl⟩
    | some e =>
      by_cases heq : tgt = id
      · subst heq
        rw [ha] at htgt
        obtain rfl : e = a := (Option.some.inj htgt).symm
        refine ⟨correctedUpdate info now e, ?_, ?_⟩
        · exact markAnswerCorrected_find_after store tgt info now e ha
        · exact le_of_le_of_eq (statusRank_le_two e.status)
            (by decide : (2 : Nat) = statusRank ("corrected"))
      · simp only [markAnswerCorrected, htgt]
        refine ⟨a, ?_, le_rfl⟩
        exact (getFaqAnswerById_update_other id tgt heq _
          (correctedUpdate_id info now) store).trans ha

theorem escApply_find_mono (store : List Escalation) (op : EscOp) (id : String)
    (a : Escalation) (ha : getEscalationById store id = some a) :
    ∃ b, getEscalationById (escApply store op) id = some b ∧
      statusRank a.status ≤ statusRank b.status := by
  cases op with
  | recordResponse tgt d now =>
    show ∃ b, getEscalationById (recordOwnerResponse store tgt d now).1 id
        = some b ∧ _
    cases htgt : getEscalationById store tgt with
    | none =>
      simp only [recordOwnerResponse, htgt]
      exact ⟨a, ha, le_rfl⟩
    | some e =>
      by_cases hst : e.status ≠ "awaiting_response"
      · simp only [recordOwnerResponse, htgt, if_pos hst]
        exact ⟨a, ha, le_rfl⟩
      · simp only [recordOwnerResponse, htgt, if_neg hst]
        have hawait : e.status = "awaiting_response" := not_not.mp hst
        by_cases heq : tgt = id
        · subst heq
          rw [ha] at htgt
          obtain rfl : e = a := (Option.some.inj htgt).symm
          refine ⟨ownerResponseUpdate d now e, ?_, ?_⟩
          · rw [getEscalationById_update_self tgt _ (ownerResponseUpdate_id d now) store,
              ha]
            rfl
          · rw [hawait]
            exact (by decide :
              statusRank ("awaiting_response") ≤ statusRank ("ready_to_synthesize"))
        · refine ⟨a, ?_, le_rfl⟩
          exact (getEscalationById_update_other id tgt heq _
            (ownerResponseUpdate_id d now) store).trans ha
  | complete tgt url now =>
    show ∃ b, getEscalationById (markEscalationComplete store tgt url now).1 id
        = some b ∧ _
    cases htgt : getEscalationById store tgt with
    | none =>
      simp only [markEscalationComplete, htgt]
      exact ⟨a, ha, le_rfl⟩
    | some e =>
      simp only [markEscalationComplete, htgt]
      by_cases heq : tgt = id
      · subst heq
        rw [ha] at htgt
        obtain rfl : e = a := (Option.some.inj htgt).symm
        refine ⟨completeUpdate url now e, ?_, ?_⟩
        · rw [getEscalationById_update_self tgt _ (completeUpdate_id url now) store, ha]
          rfl
        · rw [completeUpdate_status url now e]
          exact le_of_le_of_eq (statusRank_le_two e.status)
            (by decide : (2 : Nat) = statusRank ("completed"))
      · refine ⟨a, ?_, le_rfl⟩
        exact (getEscalationById_update_other id tgt heq _
          (completeUpdate_id url now) store).trans ha
  | skip tgt reason now =>
    show ∃ b, getEscalationById (markEscalationSkipped store tgt reason now).1 id
        = some b ∧ _
    cases htgt : getEscalationById store tgt with
    | none =>
      simp only [markEscalationSkipped, htgt]
      exact ⟨a, ha, le_rfl⟩
    | some e =>
      simp only [markEscalationSkipped, htgt]
      by_cases heq : tgt = id
      · subst heq
        rw [ha] at htgt
        obtain rfl : e = a := (Option.some.inj htgt).symm
        refine ⟨skippedUpdate reason now e, ?_, ?_⟩
        · rw [getEscalationById_update_self tgt _ (skippedUpdate_id reason now) store, ha]
          rfl
        · exact le_of_le_of_eq (statusRank_le_two e.status)
            (by decide : (2 : Nat) = statusRank ("skipped"))
      · refine ⟨a, ?_, le_rfl⟩
        exact (getEscalationById_update_other id tgt heq _
          (skippedUpdate_id reason now) store).trans ha

theorem ansRun_find_mono (ops : List AnsOp) :
    ∀ (store : List FaqAnswer) (id : String) (a : FaqAnswer),
      getFaqAnswerById store id = some a →
      ∃ b, getFaqAnswerById (ansRun store ops) id = some b ∧
        statusRank a.status ≤ statusRank b.status := by
  induction ops with
  | nil => exact fun store id a ha => ⟨a, ha, le_rfl⟩
  | cons op ops ih =>
    intro store id a ha
    obtain ⟨c, hc, hac⟩ := ansApply_find_mono store op id a ha
    obtain ⟨b, hb, hcb⟩ := ih (ansApply store op) id c hc
    exact ⟨b, hb, le_trans hac hcb⟩

theorem escRun_find_mono (ops : List EscOp) :
    ∀ (store : List Escalation) (id : String) (a : Escalation),
      getEscalationById store id = some a →
      ∃ b, getEscalationById (escRun store ops) id = some b ∧
        statusRank a.status ≤ statusRank b.status := by
  induction ops with
  | nil => exact fun store id a ha => ⟨a, ha, le_rfl⟩
  | cons op ops ih =>
    intro store id a ha
    obtain ⟨c, hc, hac⟩ := escApply_find_mono store op id a ha
    obtain ⟨b, hb, hcb⟩ := ih (escApply store op) id c hc
    exact ⟨b, hb, le_trans hac hcb⟩

theorem recordResponseUpdate_responding (u : String) (d now : Int) (a : FaqAnswer) :
    (recordResponseUpdate u d now a).respondingOwnerIds =
      if u ∈ a.respondingOwnerIds then a.respondingOwnerIds
      else a.respondingOwnerIds ++ [u] := by
  unfold recordResponseUpdate
  by_cases h1 : u ∈ a.respondingOwnerIds <;> simp [h1] <;> split_ifs <;> rfl

theorem responding_set_nodup (u : String) (l : List String) (h : l.Nodup) :
    (if u ∈ l then l else l ++ [u]).Nodup := by
  by_cases h1 : u ∈ l
  · simpa [h1] using h
  · simp [h1, List.nodup_append, h]

/-! ### Claim theorems -/

/-- C1 (code_bug): `cleanupOldFaqAnswers` exempts every non-terminal
answer, but `cleanupOldEscalations` exempts only the status string
"pending", which no escalation ever carries — so a 40-day-old escalation
still awaiting a response is removed by the pruning pass, against both the
spec and the function's own "cleanup old completed/skipped escalations"
intent.  Here 3456000000 ms = 40 days. -/
theorem cleanup_prunes_nonterminal_escalation :
    escA.status = "awaiting_response"
    ∧ cleanupOldEscalations [escA] 30 3456000000 = []
    ∧ ansA.status = "active"
    ∧ cleanupOldFaqAnswers [ansA] 30 3456000000 = [ansA] :=
  ⟨rfl, rfl, rfl, rfl⟩

/-- C4 (amended): `markAnswerProcessed` / `markAnswerCorrected` reject
(returning false with the store unchanged) only a missing record; any
existing record — already terminal or not — is overwritten to the new
terminal status and true is returned. -/
theorem markAnswer_rejects_only_missing (store : List FaqAnswer) (id : String)
    (info : Option String) (now : Int) :
    (getFaqAnswerById store id = none →
      markAnswerProcessed store id info now = (store, false)
      ∧ markAnswerCorrected store id info now = (store, false))
    ∧ (∀ a, getFaqAnswerById store id = some a →
      (markAnswerProcessed store id info now).2 = true
      ∧ getFaqAnswerById (markAnswerProcessed store id info now).1 id =
          some { a with status := "processed", processedAt := some now,
                        processInfo := info }
      ∧ (markAnswerCorrected store id info now).2 = true
      ∧ getFaqAnswerById (markAnswerCorrected store id info now).1 id =
          some { a with status := "corrected", correctedAt := some now,
                        correctionInfo := info }) := by
  constructor
  · intro h
    constructor <;> simp [markAnswerProcessed, markAnswerCorrected, h]
  · intro a ha
    refine ⟨?_, ?_, ?_, ?_⟩
    · simp [markAnswerProcessed, ha]
    · exact markAnswerProcessed_find_after store id info now a ha
    · simp [markAnswerCorrected, ha]
    · exact markAnswerCorrected_find_after store id info now a ha

/-- C4 (counterexample): on a record already in terminal status
"corrected", `markAnswerProcessed` returns true and overwrites the status
to "processed" instead of rejecting and leaving the record unchanged. -/
theorem markAnswerProcessed_overwrites_terminal :
    ansCorrected.status = "corrected"
    ∧ (markAnswerProcessed [ansCorrected] ("a1") none 50).2 = true
    ∧ (getFaqAnswerById (markAnswerProcessed [ansCorrected] ("a1") none 50).1
        ("a1")).map FaqAnswer.status = some ("processed") :=
  ⟨rfl, rfl, rfl⟩

/-- C4 witness: the amended theorem applied to a store holding one
terminal record. -/
theorem markAnswer_rejects_only_missing_witness :
    (markAnswerProcessed [ansCorrected] ("a1") none 7).2 = true :=
  ((markAnswer_rejects_only_missing [ansCorrected] ("a1") none 7).2
    ansCorrected rfl).1

/-- C5 (amended): under any sequence of store operations, a record's
status rank (awaiting_response/active = 0, ready_to_synthesize/
pending_correction = 1, terminal = 2) never decreases: no record ever
reverts to an earlier lifecycle stage.  The original claim's further
assertion — that no record moves from one terminal status to another — is
refuted by `terminal_status_overwritten`, because the terminal mark
operations overwrite any existing record unguarded. -/
theorem statusRank_monotone_over_traces :
    (∀ (store : List Escalation) (ops : List EscOp) (id : String)
       (a b : Escalation),
       getEscalationById store id = some a →
       getEscalationById (escRun store ops) id = some b →
       statusRank a.status ≤ statusRank b.status)
    ∧ (∀ (store : List FaqAnswer) (ops : List AnsOp) (id : String)
       (a b : FaqAnswer),
       getFaqAnswerById store id = some a →
       getFaqAnswerById (ansRun store ops) id = some b →
       statusRank a.status ≤ statusRank b.status) := by
  constructor
  · intro store ops id a b ha hb
    obtain ⟨c, hc, hle⟩ := escRun_find_mono ops store id a ha
    rw [hb] at hc
    obtain rfl := Option.some.inj hc
    exact hle
  · intro store ops id a b ha hb
    obtain ⟨c, hc, hle⟩ := ansRun_find_mono ops store id a ha
    rw [hb] at hc
    obtain rfl := Option.some.inj hc
    exact hle

/-- C5 (counterexample): an escalation completed at time 5 is overwritten
to "skipped" by a later skip — a record moving from one terminal status to
another, which the claim asserts never happens. -/
theorem terminal_status_overwritten :
    (getEscalationById (escRun [escA] [EscOp.complete ("e1") none 5]) ("e1")).map
        Escalation.status = some ("completed")
    ∧ (getEscalationById
        (escRun [escA]
          [EscOp.complete ("e1") none 5, EscOp.skip ("e1") ("again") 9])
        ("e1")).map Escalation.status = some ("skipped") :=
  ⟨rfl, rfl⟩

/-- C5 witness: the trace theorem applied to a one-record store and a
one-step trace. -/
theorem statusRank_monotone_over_traces_witness :
    statusRank ("awaiting_response") ≤ statusRank ("completed") :=
  (statusRank_monotone_over_traces).1 [escA] [EscOp.complete ("e1") none 5]
    ("e1") escA (completeUpdate none 5 escA) rfl rfl

/-- C7 (confirmed): `recordCorrectionResponse` returns false on a missing
or terminal record; on an "active" record it adds the responder with set
semantics, moves to "pending_correction" and sets the timer to now plus
the delay; on a "pending_correction" record only the responder set can
grow and the timer is untouched; responder sets stay duplicate-free; and
two distinct owners responding yield both owners recorded with the timer
fixed by the first call only. -/
theorem recordCorrectionResponse_contract (store : List FaqAnswer)
    (id u : String) (d now : Int) :
    (getFaqAnswerById store id = none →
      recordCorrectionResponse store id u d now = (store, false))
    ∧ (∀ a, getFaqAnswerById store id = some a →
        a.status = "corrected" ∨ a.status = "processed" →
        recordCorrectionResponse store id u d now = (store, false))
    ∧ (∀ a, getFaqAnswerById store id = some a → a.status = "active" →
        (recordCorrectionResponse store id u d now).2 = true
        ∧ getFaqAnswerById (recordCorrectionResponse store id u d now).1 id =
            some { a with
              respondingOwnerIds :=
                if u ∈ a.respondingOwnerIds then a.respondingOwnerIds
                else a.respondingOwnerIds ++ [u]
              status := "pending_correction"
              firstResponseAt := some now
              processAfter := some (now + d) })
    ∧ (∀ a, getFaqAnswerById store id = some a →
        a.status = "pending_correction" →
        (recordCorrectionResponse store id u d now).2 = true
        ∧ getFaqAnswerById (recordCorrectionResponse store id u d now).1 id =
            some { a with
              respondingOwnerIds :=
                if u ∈ a.respondingOwnerIds then a.respondingOwnerIds
                else a.respondingOwnerIds ++ [u] })
    ∧ (∀ a, getFaqAnswerById store id = some a → a.respondingOwnerIds.Nodup →
        ∀ b, getFaqAnswerById (recordCorrectionResponse store id u d now).1 id
            = some b →
        b.respondingOwnerIds.Nodup)
    ∧ (∀ a u2 d2 t2, getFaqAnswerById store id = some a →
        a.status = "active" → a.respondingOwnerIds = [] → u ≠ u2 →
        getFaqAnswerById
          ((recordCorrectionResponse
             (recordCorrectionResponse store id u d now).1 id u2 d2 t2).1) id =
          some { a with
            respondingOwnerIds := [u, u2]
            status := "pending_correction"
            firstResponseAt := some now
            processAfter := some (now + d) }) := by
  refine ⟨?_, ?_, ?_, ?_, ?_, ?_⟩
  · exact recordCorrectionResponse_missing store id u d now
  · exact fun a => recordCorrectionResponse_terminal store id u d now a
  · intro a ha hact
    have hterm : ¬ (a.status = "corrected" ∨ a.status = "processed") := by
      rw [hact]; decide
    constructor
    · rw [recordCorrectionResponse_live store id u d now a ha hterm]
    · rw [recordCorrectionResponse_find_after store id u d now a ha hterm,
        recordResponseUpdate_active u d now a hact]
  · intro a ha hpend
    have hterm : ¬ (a.status = "corrected" ∨ a.status = "processed") := by
      rw [hpend]; decide
    have hact : ¬ a.status = "active" := by rw [hpend]; decide
    constructor
    · rw [recordCorrectionResponse_live store id u d now a ha hterm]
    · rw [recordCorrectionResponse_find_after store id u d now a ha hterm,
        recordResponseUpdate_not_active u d now a hact]
  · intro a ha hnd b hb
    by_cases hterm : a.status = "corrected" ∨ a.status = "processed"
    · rw [recordCorrectionResponse_terminal store id u d now a ha hterm] at hb
      rw [ha] at hb
      obtain rfl := Option.some.inj hb
      exact hnd
    · rw [recordCorrectionResponse_find_after store id u d now a ha hterm] at hb
      obtain rfl := Option.some.inj hb
      rw [recordResponseUpdate_responding u d now a]
      exact responding_set_nodup u a.respondingOwnerIds hnd
  · intro a u2 d2 t2 ha hact hresp hne
    have hterm : ¬ (a.status = "corrected" ∨ a.status = "processed") := by
      rw [hact]; decide
    have h1 := recordCorrectionResponse_find_after store id u d now a ha hterm
    rw [recordResponseUpdate_active u d now a hact] at h1
    rw [hresp] at h1
    simp only [List.not_mem_nil, if_false, List.nil_append] at h1
    have hterm2 : ¬ (({ a with
        respondingOwnerIds := [u]
        status := "pending_correction"
        firstResponseAt := some now
        processAfter := some (now + d) } : FaqAnswer).status = "corrected"
        ∨ ({ a with
        respondingOwnerIds := [u]
        status := "pending_correction"
        firstResponseAt := some now
        processAfter := some (now + d) } : FaqAnswer).status = "processed") := by
      simp
    have h2 := recordCorrectionResponse_find_after
      (recordCorrectionResponse store id u d now).1 id u2 d2 t2 _ h1 hterm2
    rw [recordResponseUpdate_not_active u2 d2 t2 _ (by simp)] at h2
    have hmem : ¬ u2 ∈ [u] := by
      simp [List.mem_singleton]
      exact fun h => hne h.symm
    simp only [hmem, if_false] at h2
    simpa using h2

/-- C7 witness: two distinct owners respond to a fresh active answer; both
are recorded and the timer comes from the first call. -/
theorem recordCorrectionResponse_contract_witness :
    getFaqAnswerById
      ((recordCorrectionResponse
         (recordCorrectionResponse [ansA] ("a1") ("u1") 100 10).1
         ("a1") ("u2") 200 20).1) ("a1") =
      some { ansA with
        respondingOwnerIds := [("u1"), ("u2")]
        status := "pending_correction"
        firstResponseAt := some 10
        processAfter := some (10 + 100) } :=
  (recordCorrectionResponse_contract [ansA] ("a1") ("u1") 100 10).2.2.2.2.2
    ansA ("u2") 200 20 rfl rfl rfl (by decide)

/-! ### Pending-DM map lemmas -/

theorem lookup_erase_self (m : List (String × PendingDm)) (u : String) :
    (erasePending m u).find? (fun p => p.1 == u) = none := by
  rw [List.find?_eq_none]
  intro x hx
  rw [erasePending, List.mem_filter] at hx
  simpa using hx.2

theorem lookup_erase_other (m : List (String × PendingDm)) (u v : String)
    (hne : v ≠ u) :
    (erasePending m u).find? (fun p => p.1 == v) = m.find? (fun p => p.1 == v) := by
  induction m with
  | nil => rfl
  | cons x rest ih =>
    cases hx : (x.1 == u) with
    | true =>
      have hxv : (x.1 == v) = false := by
        have : x.1 = u := by simpa using hx
        rw [this]
        simpa using fun h => hne h.symm
      simp [erasePending, List.filter_cons, hx, List.find?_cons, hxv] at ih ⊢
      exact ih
    | false =>
      cases hxv : (x.1 == v) with
      | true => simp [erasePending, List.filter_cons, hx, List.find?_cons, hxv]
      | false =>
        simp [erasePending, List.filter_cons, hx, List.find?_cons, hxv] at ih ⊢
        exact ih

theorem lookupPendingDm_clear_self (s : DmState) (u : String) :
    lookupPendingDm (clearPendingDm s u) u = none := by
  unfold lookupPendingDm clearPendingDm
  rw [lookup_erase_self]
  rfl

theorem lookupPendingDm_clear_other (s : DmState) (u v : String) (hne : v ≠ u) :
    lookupPendingDm (clearPendingDm s u) v = lookupPendingDm s v := by
  unfold lookupPendingDm clearPendingDm
  rw [lookup_erase_other s.pendingDmActions u v hne]

theorem lookupPendingDm_eq_none_iff (s : DmState) (u : String) :
    lookupPendingDm s u = none ↔ ∀ pr ∈ s.pendingDmActions, ¬ pr.1 = u := by
  unfold lookupPendingDm
  rw [Option.map_eq_none', List.find?_eq_none]
  constructor
  · intro h pr hpr
    simpa using h pr hpr
  · intro h pr hpr
    simpa using h pr hpr

theorem lookup_clearForCorrection (s : DmState) (cid v : String) (q : PendingDm)
    (h : lookupPendingDm (clearPendingDmsForCorrection s cid) v = some q) :
    ¬ (q.intent = "faq_correction_approval"
       ∧ q.partialData.correctionId = cid) := by
  unfold lookupPendingDm clearPendingDmsForCorrection at h
  obtain ⟨pr, hfind, hsnd⟩ := Option.map_eq_some.mp h
  have hmem := List.mem_of_find?_eq_some hfind
  rw [List.mem_filter] at hmem
  have hkeep := hmem.2
  intro hc
  rw [← hsnd] at hc
  simp [hc.1, hc.2] at hkeep

theorem clearPendingDm_processed (s : DmState) (u : String) :
    (clearPendingDm s u).processedCorrections = s.processedCorrections := rfl

theorem clearForCorrection_processed (s : DmState) (cid : String) :
    (clearPendingDmsForCorrection s cid).processedCorrections
      = s.processedCorrections := rfl

theorem setPendingDm_processed (s : DmState) (u intent : String)
    (d : CorrectionData) (now : Int) :
    (setPendingDm s u intent d now).processedCorrections
      = s.processedCorrections := rfl

theorem getPendingDm_processed (s : DmState) (u : String) (now : Int) :
    ((getPendingDm s u now).2).processedCorrections = s.processedCorrections := by
  unfold getPendingDm
  cases h : lookupPendingDm s u with
  | none => rfl
  | some p =>
    dsimp only
    split_ifs <;> rfl

theorem getPendingDm_live (s : DmState) (u : String) (now : Int) (p : PendingDm)
    (hlook : lookupPendingDm s u = some p) (hexp : ¬ now > p.expiresAt) :
    getPendingDm s u now = (some p, s) := by
  unfold getPendingDm
  rw [hlook]
  dsimp only
  rw [if_neg hexp]

theorem getPendingDm_expired (s : DmState) (u : String) (now : Int) (p : PendingDm)
    (hlook : lookupPendingDm s u = some p) (hexp : now > p.expiresAt) :
    getPendingDm s u now = (none, clearPendingDm s u) := by
  unfold getPendingDm
  rw [hlook]
  dsimp only
  rw [if_pos hexp]
  rfl

theorem getPendingDm_absent (s : DmState) (u : String) (now : Int)
    (hlook : lookupPendingDm s u = none) :
    getPendingDm s u now = (none, s) := by
  unfold getPendingDm
  rw [hlook]

theorem lookupPendingDm_set_self (s : DmState) (u intent : String)
    (d : CorrectionData) (now : Int) :
    lookupPendingDm (setPendingDm s u intent d now) u =
      some { intent := intent, partialData := d,
             expiresAt := now + PENDING_DM_EXPIRY_MS } := by
  unfold lookupPendingDm setPendingDm
  rw [List.find?_append, lookup_erase_self]
  simp

/-! ### Step equations for the conversation handler -/

theorem dmStep_noPending (s : DmState) (u text : String) (upd : UpdateOutcome)
    (rev : ReviseOutcome) (now : Int) (hlook : lookupPendingDm s u = none) :
    dmMessageStep s u text upd rev now =
      { state := s, reply := .noPending, mutations := [] } := by
  unfold dmMessageStep
  rw [getPendingDm_absent s u now hlook]

theorem dmStep_expired (s : DmState) (u text : String) (upd : UpdateOutcome)
    (rev : ReviseOutcome) (now : Int) (p : PendingDm)
    (hlook : lookupPendingDm s u = some p) (hexp : now > p.expiresAt) :
    dmMessageStep s u text upd rev now =
      { state := clearPendingDm s u, reply := .noPending, mutations := [] } := by
  unfold dmMessageStep
  rw [getPendingDm_expired s u now p hlook hexp]

theorem dmStep_live (s : DmState) (u text : String) (upd : UpdateOutcome)
    (rev : ReviseOutcome) (now : Int) (p : PendingDm)
    (hlook : lookupPendingDm s u = some p) (hexp : ¬ now > p.expiresAt)
    (hint : p.intent = "faq_correction_approval") :
    dmMessageStep s u text upd rev now =
      continueCorrectionDm s u text p upd rev now := by
  unfold dmMessageStep
  rw [getPendingDm_live s u now p hlook hexp]
  dsimp only
  rw [if_pos hint]

theorem dmStep_otherIntent (s : DmState) (u text : String) (upd : UpdateOutcome)
    (rev : ReviseOutcome) (now : Int) (p : PendingDm)
    (hlook : lookupPendingDm s u = some p) (hexp : ¬ now > p.expiresAt)
    (hint : ¬ p.intent = "faq_correction_approval") :
    dmMessageStep s u text upd rev now =
      { state := s, reply := .otherFlow, mutations := [] } := by
  unfold dmMessageStep
  rw [getPendingDm_live s u now p hlook hexp]
  dsimp only
  rw [if_neg hint]

theorem continueCorrection_already (s : DmState) (u text : String)
    (p : PendingDm) (upd : UpdateOutcome) (rev : ReviseOutcome) (now : Int)
    (hproc : p.partialData.correctionId ∈ s.processedCorrections) :
    continueCorrectionDm s u text p upd rev now =
      { state := clearPendingDm s u, reply := .alreadyApplied, mutations := [] } := by
  unfold continueCorrectionDm
  dsimp only
  rw [if_pos hproc]

theorem continueCorrection_approve_noblock (s : DmState) (u text : String)
    (p : PendingDm) (upd : UpdateOutcome) (rev : ReviseOutcome) (now : Int)
    (hproc : p.partialData.correctionId ∉ s.processedCorrections)
    (happr : isApproval (jsTrim (jsToLower text)) = true)
    (hblock : p.partialData.blockId = none) :
    continueCorrectionDm s u text p upd rev now =
      { state := clearPendingDmsForCorrection (clearPendingDm s u)
          p.partialData.correctionId
        reply := .cannotAutoApply
        mutations := [] } := by
  unfold continueCorrectionDm
  dsimp only
  rw [if_neg hproc, happr, hblock]
  rfl

theorem continueCorrection_approve_ok (s : DmState) (u text : String)
    (p : PendingDm) (url : String) (rev : ReviseOutcome) (now : Int)
    (hproc : p.partialData.correctionId ∉ s.processedCorrections)
    (happr : isApproval (jsTrim (jsToLower text)) = true)
    (b : String) (hblock : p.partialData.blockId = some b) :
    continueCorrectionDm s u text p (.ok url) rev now =
      { state := clearPendingDmsForCorrection
          (clearPendingDm
            { s with processedCorrections :=
                s.processedCorrections ++ [p.partialData.correctionId] } u)
          p.partialData.correctionId
        reply := .updated url
        mutations := [p.partialData.correctionId] } := by
  unfold continueCorrectionDm
  dsimp only
  rw [if_neg hproc, happr, hblock]
  rfl

theorem continueCorrection_approve_threw (s : DmState) (u text : String)
    (p : PendingDm) (rev : ReviseOutcome) (now : Int)
    (hproc : p.partialData.correctionId ∉ s.processedCorrections)
    (happr : isApproval (jsTrim (jsToLower text)) = true)
    (b : String) (hblock : p.partialData.blockId = some b) :
    continueCorrectionDm s u text p .threw rev now =
      { state := clearPendingDm s u, reply := .updateFailed, mutations := [] } := by
  unfold continueCorrectionDm
  dsimp only
  rw [if_neg hproc, happr, hblock]
  rfl

theorem continueCorrection_reject (s : DmState) (u text : String)
    (p : PendingDm) (upd : UpdateOutcome) (rev : ReviseOutcome) (now : Int)
    (hproc : p.partialData.correctionId ∉ s.processedCorrections)
    (happr : isApproval (jsTrim (jsToLower text)) = false)
    (hrej : isRejection (jsTrim (jsToLower text)) = true) :
    continueCorrectionDm s u text p upd rev now =
      { state := clearPendingDm s u, reply := .rejected, mutations := [] } := by
  unfold continueCorrectionDm
  dsimp only
  rw [if_neg hproc, happr, hrej]
  rfl

theorem continueCorrection_revise_ok (s : DmState) (u text : String)
    (p : PendingDm) (upd : UpdateOutcome) (t : String) (now : Int)
    (hproc : p.partialData.correctionId ∉ s.processedCorrections)
    (happr : isApproval (jsTrim (jsToLower text)) = false)
    (hrej : isRejection (jsTrim (jsToLower text)) = false)
    (ht : ¬ t = "") :
    continueCorrectionDm s u text p upd (.returned t) now =
      { state := setPendingDm s u p.intent
          { p.partialData with suggestedUpdate := t } now
        reply := .revisePrompt t
        mutations := [] } := by
  unfold continueCorrectionDm
  dsimp only
  rw [if_neg hproc, happr, hrej]
  rw [if_neg ht]
  rfl

theorem continueCorrection_revise_empty (s : DmState) (u text : String)
    (p : PendingDm) (upd : UpdateOutcome) (now : Int)
    (hproc : p.partialData.correctionId ∉ s.processedCorrections)
    (happr : isApproval (jsTrim (jsToLower text)) = false)
    (hrej : isRejection (jsTrim (jsToLower text)) = false) :
    continueCorrectionDm s u text p upd (.returned ("")) now =
      { state := s, reply := .reviseUnusable, mutations := [] } := by
  unfold continueCorrectionDm
  dsimp only
  rw [if_neg hproc, happr, hrej]
  rfl

theorem continueCorrection_revise_threw (s : DmState) (u text : String)
    (p : PendingDm) (upd : UpdateOutcome) (now : Int)
    (hproc : p.partialData.correctionId ∉ s.processedCorrections)
    (happr : isApproval (jsTrim (jsToLower text)) = false)
    (hrej : isRejection (jsTrim (jsToLower text)) = false) :
    continueCorrectionDm s u text p upd .threw now =
      { state := s, reply := .reviseFailed, mutations := [] } := by
  unfold continueCorrectionDm
  dsimp only
  rw [if_neg hproc, happr, hrej]
  rfl

theorem dmRun_cons (s : DmState) (i : DmInput) (is : List DmInput) :
    dmRun s (i :: is) =
      ((dmRun (dmMessageStep s i.userId i.text i.upd i.rev i.now).state is).1,
       (dmMessageStep s i.userId i.text i.upd i.rev i.now).mutations
         ++ (dmRun (dmMessageStep s i.userId i.text i.upd i.rev i.now).state is).2) :=
  rfl

theorem continueCorrection_inv (s : DmState) (u text : String) (p : PendingDm)
    (upd : UpdateOutcome) (rev : ReviseOutcome) (now : Int) (cid : String) :
    (cid ∈ s.processedCorrections →
      cid ∈ (continueCorrectionDm s u text p upd rev now).state.processedCorrections)
    ∧ (cid ∈ (continueCorrectionDm s u text p upd rev now).mutations →
      cid ∉ s.processedCorrections
      ∧ cid ∈ (continueCorrectionDm s u text p upd rev now).state.processedCorrections)
    ∧ ((continueCorrectionDm s u text p upd rev now).mutations).count cid ≤ 1 := by
  by_cases hproc : p.partialData.correctionId ∈ s.processedCorrections
  · rw [continueCorrection_already s u text p upd rev now hproc]
    simp [clearPendingDm_processed]
  · cases happr : isApproval (jsTrim (jsToLower text)) with
    | true =>
      cases hblock : p.partialData.blockId with
      | none =>
        rw [continueCorrection_approve_noblock s u text p upd rev now hproc happr
          hblock]
        simp [clearForCorrection_processed, clearPendingDm_processed]
      | some b =>
        cases upd with
        | ok url =>
          rw [continueCorrection_approve_ok s u text p url rev now hproc happr b
            hblock]
          refine ⟨?_, ?_, ?_⟩
          · intro h
            simp only [clearForCorrection_processed, clearPendingDm_processed]
            exact List.mem_append_left _ h
          · intro h
            have hc : cid = p.partialData.correctionId := by simpa using h
            subst hc
            refine ⟨hproc, ?_⟩
            simp only [clearForCorrection_processed, clearPendingDm_processed]
            exact List.mem_append_right _ (by simp)
          · exact le_trans (List.count_le_length _ _) (by simp)
        | threw =>
          rw [continueCorrection_approve_threw s u text p rev now hproc happr b
            hblock]
          simp [clearPendingDm_processed]
    | false =>
      cases hrej : isRejection (jsTrim (jsToLower text)) with
      | true =>
        rw [continueCorrection_reject s u text p upd rev now hproc happr hrej]
        simp [clearPendingDm_processed]
      | false =>
        cases rev with
        | returned t =>
          by_cases ht : t = ""
          · subst ht
            rw [continueCorrection_revise_empty s u text p upd now hproc happr hrej]
            simp
          · rw [continueCorrection_revise_ok s u text p upd t now hproc happr hrej ht]
            simp [setPendingDm_processed]
        | threw =>
          rw [continueCorrection_revise_threw s u text p upd now hproc happr hrej]
          simp

theorem dmStep_inv (s : DmState) (u text : String) (upd : UpdateOutcome)
    (rev : ReviseOutcome) (now : Int) (cid : String) :
    (cid ∈ s.processedCorrections →
      cid ∈ (dmMessageStep s u text upd rev now).state.processedCorrections)
    ∧ (cid ∈ (dmMessageStep s u text upd rev now).mutations →
      cid ∉ s.processedCorrections
      ∧ cid ∈ (dmMessageStep s u text upd rev now).state.processedCorrections)
    ∧ ((dmMessageStep s u text upd rev now).mutations).count cid ≤ 1 := by
  cases hlook : lookupPendingDm s u with
  | none =>
    rw [dmStep_noPending s u text upd rev now hlook]
    simp
  | some p =>
    by_cases hexp : now > p.expiresAt
    · rw [dmStep_expired s u text upd rev now p hlook hexp]
      simp [clearPendingDm_processed]
    · by_cases hint : p.intent = "faq_correction_approval"
      · rw [dmStep_live s u text upd rev now p hlook hexp hint]
        exact continueCorrection_inv s u text p upd rev now cid
      · rw [dmStep_otherIntent s u text upd rev now p hlook hexp hint]
        simp

theorem dmRun_count (inputs : List DmInput) :
    ∀ (s : DmState) (cid : String),
      (cid ∈ s.processedCorrections → ((dmRun s inputs).2).count cid = 0)
      ∧ ((dmRun s inputs).2).count cid ≤ 1 := by
  induction inputs with
  | nil =>
    intro s cid
    simp [dmRun]
  | cons i is ih =>
    intro s cid
    obtain ⟨h1, h2, h3⟩ := dmStep_inv s i.userId i.text i.upd i.rev i.now cid
    rw [dmRun_cons]
    constructor
    · intro hin
      have hnot : cid ∉ (dmMessageStep s i.userId i.text i.upd i.rev i.now).mutations :=
        fun hm => (h2 hm).1 hin
      have hz1 := List.count_eq_zero.mpr hnot
      have hz2 :=
        (ih (dmMessageStep s i.userId i.text i.upd i.rev i.now).state cid).1 (h1 hin)
      simp [List.count_append, hz1, hz2]
    · by_cases hm : cid ∈ (dmMessageStep s i.userId i.text i.upd i.rev i.now).mutations
      · have hz2 :=
          (ih (dmMessageStep s i.userId i.text i.upd i.rev i.now).state cid).1
            (h2 hm).2
        simp only [List.count_append, hz2, Nat.add_zero]
        exact h3
      · have hz1 := List.count_eq_zero.mpr hm
        have hle := (ih (dmMessageStep s i.userId i.text i.upd i.rev i.now).state cid).2
        simp only [List.count_append, hz1, Nat.zero_add]
        exact hle

theorem continueCorrection_entries (s : DmState) (u text : String) (p : PendingDm)
    (upd : UpdateOutcome) (rev : ReviseOutcome) (now : Int) :
    ∀ pr ∈ (continueCorrectionDm s u text p upd rev now).state.pendingDmActions,
      pr ∈ s.pendingDmActions ∨ pr.1 = u := by
  by_cases hproc : p.partialData.correctionId ∈ s.processedCorrections
  · rw [continueCorrection_already s u text p upd rev now hproc]
    intro pr hpr
    rw [clearPendingDm, erasePending] at hpr
    exact Or.inl (List.mem_filter.mp hpr).1
  · cases happr : isApproval (jsTrim (jsToLower text)) with
    | true =>
      cases hblock : p.partialData.blockId with
      | none =>
        rw [continueCorrection_approve_noblock s u text p upd rev now hproc happr
          hblock]
        intro pr hpr
        simp only [clearPendingDmsForCorrection, clearPendingDm, erasePending,
          List.mem_filter] at hpr
        exact Or.inl hpr.1.1
      | some b =>
        cases upd with
        | ok url =>
          rw [continueCorrection_approve_ok s u text p url rev now hproc happr b
            hblock]
          intro pr hpr
          simp only [clearPendingDmsForCorrection, clearPendingDm, erasePending,
            List.mem_filter] at hpr
          exact Or.inl hpr.1.1
        | threw =>
          rw [continueCorrection_approve_threw s u text p rev now hproc happr b
            hblock]
          intro pr hpr
          rw [clearPendingDm, erasePending] at hpr
          exact Or.inl (List.mem_filter.mp hpr).1
    | false =>
      cases hrej : isRejection (jsTrim (jsToLower text)) with
      | true =>
        rw [continueCorrection_reject s u text p upd rev now hproc happr hrej]
        intro pr hpr
        rw [clearPendingDm, erasePending] at hpr
        exact Or.inl (List.mem_filter.mp hpr).1
      | false =>
        cases rev with
        | returned t =>
          by_cases ht : t = ""
          · subst ht
            rw [continueCorrection_revise_empty s u text p upd now hproc happr hrej]
            exact fun pr hpr => Or.inl hpr
          · rw [continueCorrection_revise_ok s u text p upd t now hproc happr hrej ht]
            intro pr hpr
            rw [setPendingDm] at hpr
            rcases List.mem_append.mp hpr with h | h
            · exact Or.inl (List.mem_filter.mp h).1
            · right
              have : pr = (u, _) := List.mem_singleton.mp h
              rw [this]
        | threw =>
          rw [continueCorrection_revise_threw s u text p upd now hproc happr hrej]
          exact fun pr hpr => Or.inl hpr

theorem dmStep_entries (s : DmState) (v text : String) (upd : UpdateOutcome)
    (rev : ReviseOutcome) (now : Int) :
    ∀ pr ∈ (dmMessageStep s v text upd rev now).state.pendingDmActions,
      pr ∈ s.pendingDmActions ∨ pr.1 = v := by
  cases hlook : lookupPendingDm s v with
  | none =>
    rw [dmStep_noPending s v text upd rev now hlook]
    exact fun pr hpr => Or.inl hpr
  | some p =>
    by_cases hexp : now > p.expiresAt
    · rw [dmStep_expired s v text upd rev now p hlook hexp]
      intro pr hpr
      rw [clearPendingDm, erasePending] at hpr
      exact Or.inl (List.mem_filter.mp hpr).1
    · by_cases hint : p.intent = "faq_correction_approval"
      · rw [dmStep_live s v text upd rev now p hlook hexp hint]
        exact continueCorrection_entries s v text p upd rev now
      · rw [dmStep_otherIntent s v text upd rev now p hlook hexp hint]
        exact fun pr hpr => Or.inl hpr

theorem dmStep_lookup_none (s : DmState) (v text : String) (upd : UpdateOutcome)
    (rev : ReviseOutcome) (now : Int) (u : String)
    (h : lookupPendingDm s u = none) :
    lookupPendingDm (dmMessageStep s v text upd rev now).state u = none := by
  by_cases hv : v = u
  · subst hv
    rw [dmStep_noPending s v text upd rev now h]
    exact h
  · rw [lookupPendingDm_eq_none_iff] at h ⊢
    intro pr hpr
    rcases dmStep_entries s v text upd rev now pr hpr with hmem | hkey
    · exact h pr hmem
    · exact fun h2 => hv (hkey.symm.trans h2)

theorem dmRun_lookup_none (inputs : List DmInput) :
    ∀ (s : DmState) (u : String), lookupPendingDm s u = none →
      lookupPendingDm (dmRun s inputs).1 u = none := by
  induction inputs with
  | nil => exact fun s u h => h
  | cons i is ih =>
    intro s u h
    rw [dmRun_cons]
    exact ih _ u (dmStep_lookup_none s i.userId i.text i.upd i.rev i.now u h)

/-- C2 (confirmed): per correction id, across any sequence of inbound DMs
at most one successful `updateFaqBlock` mutation happens; a live Pending
DM whose correction id is already in the applied-correction marker makes
any message produce the "already applied" reply, clear that user's
Pending DM and perform no mutation; and a successful approval records the
id in the marker and leaves no Pending DM (any user's) referencing that
correction id. -/
theorem correction_applied_at_most_once :
    (∀ (s : DmState) (inputs : List DmInput) (cid : String),
       ((dmRun s inputs).2).count cid ≤ 1)
    ∧ (∀ (s : DmState) (u text : String) (upd : UpdateOutcome)
         (rev : ReviseOutcome) (now : Int) (p : PendingDm),
       lookupPendingDm s u = some p → ¬ now > p.expiresAt →
       p.intent = "faq_correction_approval" →
       p.partialData.correctionId ∈ s.processedCorrections →
       dmMessageStep s u text upd rev now =
         { state := clearPendingDm s u, reply := .alreadyApplied, mutations := [] }
       ∧ lookupPendingDm (dmMessageStep s u text upd rev now).state u = none)
    ∧ (∀ (s : DmState) (u text url : String) (rev : ReviseOutcome) (now : Int)
         (p : PendingDm) (b : String),
       lookupPendingDm s u = some p → ¬ now > p.expiresAt →
       p.intent = "faq_correction_approval" →
       p.partialData.correctionId ∉ s.processedCorrections →
       isApproval (jsTrim (jsToLower text)) = true →
       p.partialData.blockId = some b →
       (dmMessageStep s u text (.ok url) rev now).mutations
           = [p.partialData.correctionId]
       ∧ p.partialData.correctionId ∈
           (dmMessageStep s u text (.ok url) rev now).state.processedCorrections
       ∧ (∀ v q, lookupPendingDm
             (dmMessageStep s u text (.ok url) rev now).state v = some q →
           ¬ (q.intent = "faq_correction_approval"
              ∧ q.partialData.correctionId = p.partialData.correctionId))) := by
  refine ⟨?_, ?_, ?_⟩
  · exact fun s inputs cid => (dmRun_count inputs s cid).2
  · intro s u text upd rev now p hlook hexp hint hproc
    have heq := (dmStep_live s u text upd rev now p hlook hexp hint).trans
      (continueCorrection_already s u text p upd rev now hproc)
    refine ⟨heq, ?_⟩
    rw [heq]
    exact lookupPendingDm_clear_self s u
  · intro s u text url rev now p b hlook hexp hint hproc happr hblock
    have heq := (dmStep_live s u text (.ok url) rev now p hlook hexp hint).trans
      (continueCorrection_approve_ok s u text p url rev now hproc happr b hblock)
    rw [heq]
    refine ⟨rfl, ?_, ?_⟩
    · simp only [clearForCorrection_processed, clearPendingDm_processed]
      exact List.mem_append_right _ (by simp)
    · intro v q hq
      exact lookup_clearForCorrection _ _ _ _ hq

/-- C2 witness: a live Pending DM for correction "c1" with a known block,
approved with a successful document update: the mutation for "c1" is the
single mutation of the step. -/
theorem correction_applied_at_most_once_witness :
    (dmMessageStep dmS0 ("u1") ("yes") (UpdateOutcome.ok ("url"))
      ReviseOutcome.threw 10).mutations = [("c1")] :=
  ((correction_applied_at_most_once).2.2 dmS0 ("u1") ("yes") ("url")
    ReviseOutcome.threw 10 corrPending ("b1") rfl (by decide) rfl (by decide)
    (by decide) rfl).1

/-- C6 (counterexample): a correction approval whose document update
throws gets the apology reply, but the approver's own Pending DM is
cleared, not left intact: the lookup right after the failing step is
absent. -/
theorem dm_update_failure_clears_pending :
    (dmMessageStep dmS0 ("u1") ("yes") UpdateOutcome.threw
      ReviseOutcome.threw 10).reply = DmReply.updateFailed
    ∧ lookupPendingDm (dmMessageStep dmS0 ("u1") ("yes") UpdateOutcome.threw
        ReviseOutcome.threw 10).state ("u1") = none := by
  constructor <;> decide

/-- C6 (amended): errors from upstream calls inside the correction flow
are caught and answered with an apology, and a failed revision call
leaves the Pending DM fully intact; but a failed document update during
an approval clears the failing user's own Pending DM (the marker and
every other user's Pending DM are untouched), so retry needs the sweep to
re-deliver rather than a repeated reply. -/
theorem dm_upstream_error_handling :
    (∀ (s : DmState) (u text : String) (rev : ReviseOutcome) (now : Int)
       (p : PendingDm) (b : String),
       lookupPendingDm s u = some p → ¬ now > p.expiresAt →
       p.intent = "faq_correction_approval" →
       p.partialData.correctionId ∉ s.processedCorrections →
       isApproval (jsTrim (jsToLower text)) = true →
       p.partialData.blockId = some b →
       (dmMessageStep s u text .threw rev now).reply = .updateFailed
       ∧ (dmMessageStep s u text .threw rev now).mutations = []
       ∧ (dmMessageStep s u text .threw rev now).state.processedCorrections
           = s.processedCorrections
       ∧ lookupPendingDm (dmMessageStep s u text .threw rev now).state u = none
       ∧ (∀ v, v ≠ u →
           lookupPendingDm (dmMessageStep s u text .threw rev now).state v
             = lookupPendingDm s v))
    ∧ (∀ (s : DmState) (u text : String) (upd : UpdateOutcome) (now : Int)
       (p : PendingDm),
       lookupPendingDm s u = some p → ¬ now > p.expiresAt →
       p.intent = "faq_correction_approval" →
       p.partialData.correctionId ∉ s.processedCorrections →
       isApproval (jsTrim (jsToLower text)) = false →
       isRejection (jsTrim (jsToLower text)) = false →
       dmMessageStep s u text upd .threw now =
         { state := s, reply := .reviseFailed, mutations := [] }) := by
  constructor
  · intro s u text rev now p b hlook hexp hint hproc happr hblock
    have heq := (dmStep_live s u text .threw rev now p hlook hexp hint).trans
      (continueCorrection_approve_threw s u text p rev now hproc happr b hblock)
    rw [heq]
    exact ⟨rfl, rfl, rfl, lookupPendingDm_clear_self s u,
      fun v hv => lookupPendingDm_clear_other s u v hv⟩
  · intro s u text upd now p hlook hexp hint hproc happr hrej
    exact (dmStep_live s u text upd .threw now p hlook hexp hint).trans
      (continueCorrection_revise_threw s u text p upd now hproc happr hrej)

/-- C6 witness: the amended theorem at a concrete failing approval — the
sibling approver's Pending DM survives the failure. -/
theorem dm_upstream_error_handling_witness :
    lookupPendingDm (dmMessageStep dmS0 ("u1") ("yes") UpdateOutcome.threw
      ReviseOutcome.threw 10).state ("u2") = lookupPendingDm dmS0 ("u2") :=
  ((dm_upstream_error_handling).1 dmS0 ("u1") ("yes") ReviseOutcome.threw 10
    corrPending ("b1") rfl (by decide) rfl (by decide) (by decide) rfl).2.2.2.2
    ("u2") (by decide)

/-- C10 (confirmed): when `updateFaqBlock` throws during an approval the
correction id is not added to the marker, only the failing approver's own
Pending DM is cleared and every sibling Pending DM survives; the marker is
extended and sibling Pending DMs are cleared only on a successful update;
and after a failure another user still holding a Pending DM for the same
correction id can approve and produce the mutation. -/
theorem correction_marker_only_after_success :
    (∀ (s : DmState) (u text : String) (rev : ReviseOutcome) (now : Int)
       (p : PendingDm) (b : String),
       lookupPendingDm s u = some p → ¬ now > p.expiresAt →
       p.intent = "faq_correction_approval" →
       p.partialData.correctionId ∉ s.processedCorrections →
       isApproval (jsTrim (jsToLower text)) = true →
       p.partialData.blockId = some b →
       p.partialData.correctionId ∉
           (dmMessageStep s u text .threw rev now).state.processedCorrections
       ∧ (dmMessageStep s u text .threw rev now).mutations = []
       ∧ lookupPendingDm (dmMessageStep s u text .threw rev now).state u = none
       ∧ (∀ v, v ≠ u →
           lookupPendingDm (dmMessageStep s u text .threw rev now).state v
             = lookupPendingDm s v))
    ∧ (∀ (s : DmState) (u text url : String) (rev : ReviseOutcome) (now : Int)
       (p : PendingDm) (b : String),
       lookupPendingDm s u = some p → ¬ now > p.expiresAt →
       p.intent = "faq_correction_approval" →
       p.partialData.correctionId ∉ s.processedCorrections →
       isApproval (jsTrim (jsToLower text)) = true →
       p.partialData.blockId = some b →
       p.partialData.correctionId ∈
           (dmMessageStep s u text (.ok url) rev now).state.processedCorrections
       ∧ (∀ v q, lookupPendingDm
             (dmMessageStep s u text (.ok url) rev now).state v = some q →
           ¬ (q.intent = "faq_correction_approval"
              ∧ q.partialData.correctionId = p.partialData.correctionId)))
    ∧ (∀ (s : DmState) (u text : String) (rev : ReviseOutcome) (now : Int)
       (p : PendingDm) (b : String)
       (v text2 url2 : String) (rev2 : ReviseOutcome) (now2 : Int)
       (q : PendingDm) (b2 : String),
       lookupPendingDm s u = some p → ¬ now > p.expiresAt →
       p.intent = "faq_correction_approval" →
       p.partialData.correctionId ∉ s.processedCorrections →
       isApproval (jsTrim (jsToLower text)) = true →
       p.partialData.blockId = some b →
       v ≠ u → lookupPendingDm s v = some q → ¬ now2 > q.expiresAt →
       q.intent = "faq_correction_approval" →
       q.partialData.correctionId = p.partialData.correctionId →
       isApproval (jsTrim (jsToLower text2)) = true →
       q.partialData.blockId = some b2 →
       (dmMessageStep (dmMessageStep s u text .threw rev now).state
           v text2 (.ok url2) rev2 now2).mutations
         = [p.partialData.correctionId]) := by
  refine ⟨?_, ?_, ?_⟩
  · intro s u text rev now p b hlook hexp hint hproc happr hblock
    have heq := (dmStep_live s u text .threw rev now p hlook hexp hint).trans
      (continueCorrection_approve_threw s u text p rev now hproc happr b hblock)
    rw [heq]
    exact ⟨hproc, rfl, lookupPendingDm_clear_self s u,
      fun v hv => lookupPendingDm_clear_other s u v hv⟩
  · intro s u text url rev now p b hlook hexp hint hproc happr hblock
    have h := (correction_applied_at_most_once).2.2 s u text url rev now p b
      hlook hexp hint hproc happr hblock
    exact ⟨h.2.1, h.2.2⟩
  · intro s u text rev now p b v text2 url2 rev2 now2 q b2
      hlook hexp hint hproc happr hblock hvu hlookv hexp2 hint2 hcid happr2 hblock2
    have heq := (dmStep_live s u text .threw rev now p hlook hexp hint).trans
      (continueCorrection_approve_threw s u text p rev now hproc happr b hblock)
    rw [heq]
    have hlookv2 : lookupPendingDm (clearPendingDm s u) v = some q := by
      rw [lookupPendingDm_clear_other s u v hvu]
      exact hlookv
    have hproc2 : q.partialData.correctionId ∉
        (clearPendingDm s u).processedCorrections := by
      rw [clearPendingDm_processed, hcid]
      exact hproc
    have heq2 := (dmStep_live (clearPendingDm s u) v text2 (.ok url2) rev2 now2 q
        hlookv2 hexp2 hint2).trans
      (continueCorrection_approve_ok (clearPendingDm s u) v text2 q url2 rev2 now2
        hproc2 happr2 b2 hblock2)
    rw [heq2, hcid]

/-- C10 witness: approver u1 fails, then approver u2 succeeds — the
mutation still happens exactly for correction "c1". -/
theorem correction_marker_only_after_success_witness :
    (dmMessageStep (dmMessageStep dmS0 ("u1") ("yes") UpdateOutcome.threw
        ReviseOutcome.threw 10).state
      ("u2") ("ok") (UpdateOutcome.ok ("url2")) ReviseOutcome.threw 20).mutations
      = [("c1")] :=
  (correction_marker_only_after_success).2.2 dmS0 ("u1") ("yes")
    ReviseOutcome.threw 10 corrPending ("b1") ("u2") ("ok") ("url2")
    ReviseOutcome.threw 20 corrPending ("b1") rfl (by decide) rfl (by decide)
    (by decide) rfl (by decide) rfl (by decide) rfl rfl (by decide) rfl

/-- C8 (confirmed): every write of a Pending DM stamps an absolute expiry
ten minutes from now; a lookup strictly after the expiry reports absence
and discards the entry; a message arriving after the expiry is handled as
if no Pending DM existed (no branch of the correction flow runs); and
once a user's entry is absent, it stays absent under any further inbound
messages unless that user's own flow writes a new one (no resurrection). -/
theorem pendingDm_ttl :
    (∀ (s : DmState) (u intent : String) (d : CorrectionData) (now : Int),
       lookupPendingDm (setPendingDm s u intent d now) u =
         some { intent := intent, partialData := d,
                expiresAt := now + 10 * 60 * 1000 })
    ∧ (∀ (s : DmState) (u : String) (now : Int) (p : PendingDm),
       lookupPendingDm s u = some p → now > p.expiresAt →
       getPendingDm s u now = (none, clearPendingDm s u)
       ∧ lookupPendingDm (clearPendingDm s u) u = none)
    ∧ (∀ (s : DmState) (u text : String) (upd : UpdateOutcome)
         (rev : ReviseOutcome) (now : Int) (p : PendingDm),
       lookupPendingDm s u = some p → now > p.expiresAt →
       dmMessageStep s u text upd rev now =
         { state := clearPendingDm s u, reply := .noPending, mutations := [] })
    ∧ (∀ (inputs : List DmInput) (s : DmState) (u : String),
       lookupPendingDm s u = none →
       lookupPendingDm (dmRun s inputs).1 u = none) := by
  refine ⟨?_, ?_, ?_, ?_⟩
  · exact fun s u intent d now => lookupPendingDm_set_self s u intent d now
  · exact fun s u now p hlook hexp =>
      ⟨getPendingDm_expired s u now p hlook hexp, lookupPendingDm_clear_self s u⟩
  · exact fun s u text upd rev now p hlook hexp =>
      dmStep_expired s u text upd rev now p hlook hexp
  · exact fun inputs s u h => dmRun_lookup_none inputs s u h

/-- C8 witness: a Pending DM expiring at 1000 read at 2000 is dropped and
the message is handled with no pending flow; afterwards the entry stays
absent under a later message at 2500. -/
theorem pendingDm_ttl_witness :
    dmMessageStep dmS0 ("u1") ("hello") UpdateOutcome.threw
        ReviseOutcome.threw 2000 =
      { state := clearPendingDm dmS0 ("u1"), reply := .noPending,
        mutations := [] }
    ∧ lookupPendingDm
        (dmRun (clearPendingDm dmS0 ("u1"))
          [{ userId := "u1", text := "yes", upd := UpdateOutcome.threw,
             rev := ReviseOutcome.threw, now := 2500 }]).1 ("u1") = none :=
  ⟨(pendingDm_ttl).2.2.1 dmS0 ("u1") ("hello") UpdateOutcome.threw
      ReviseOutcome.threw 2000 corrPending rfl (by decide),
   (pendingDm_ttl).2.2.2
      [{ userId := "u1", text := "yes", upd := UpdateOutcome.threw,
         rev := ReviseOutcome.threw, now := 2500 }]
      (clearPendingDm dmS0 ("u1")) ("u1") (by decide)⟩

/-! ### Recipient lemmas for the correction job -/

theorem lookupPendingDm_set_other (s : DmState) (v intent : String)
    (d : CorrectionData) (now : Int) (u : String) (hne : u ≠ v) :
    lookupPendingDm (setPendingDm s v intent d now) u = lookupPendingDm s u := by
  unfold lookupPendingDm setPendingDm
  rw [List.find?_append, lookup_erase_other s.pendingDmActions v u hne]
  have hvu : (v == u) = false := by simpa using fun hh => hne hh.symm
  cases h : s.pendingDmActions.find? (fun p => p.1 == u) with
  | none => simp [h, List.find?_cons, hvu]
  | some pr => simp [h]

theorem sendCorrectionDms_cons (s : DmState) (dmOk : String → Bool)
    (v : String) (rest : List String) (data : CorrectionData) (now : Int) :
    sendCorrectionDms s dmOk (v :: rest) data now =
      sendCorrectionDms
        (if dmOk v then setPendingDm s v ("faq_correction_approval") data now
         else s)
        dmOk rest data now := rfl

theorem sendCorrectionDms_not_mem (dmOk : String → Bool) (data : CorrectionData)
    (now : Int) :
    ∀ (L : List String) (s : DmState) (uid : String), uid ∉ L →
      lookupPendingDm (sendCorrectionDms s dmOk L data now) uid =
        lookupPendingDm s uid := by
  intro L
  induction L with
  | nil => exact fun s uid _ => rfl
  | cons v rest ih =>
    intro s uid hmem
    have huv : uid ≠ v := fun h => hmem (by rw [h]; exact List.mem_cons_self v rest)
    have hur : uid ∉ rest := fun h => hmem (List.mem_cons_of_mem v h)
    rw [sendCorrectionDms_cons, ih _ uid hur]
    by_cases hdv : dmOk v = true
    · rw [if_pos hdv, lookupPendingDm_set_other s v _ data now uid huv]
    · rw [if_neg hdv]

theorem sendCorrectionDms_mem (dmOk : String → Bool) (data : CorrectionData)
    (now : Int) :
    ∀ (L : List String) (s : DmState) (uid : String), uid ∈ L →
      dmOk uid = true →
      lookupPendingDm (sendCorrectionDms s dmOk L data now) uid =
        some { intent := "faq_correction_approval", partialData := data,
               expiresAt := now + PENDING_DM_EXPIRY_MS } := by
  intro L
  induction L with
  | nil => exact fun s uid h => absurd h (List.not_mem_nil uid)
  | cons v rest ih =>
    intro s uid hmem hdm
    by_cases hur : uid ∈ rest
    · rw [sendCorrectionDms_cons]
      exact ih _ uid hur hdm
    · have huv : uid = v := by
        rcases List.mem_cons.mp hmem with h | h
        · exact h
        · exact absurd h hur
      subst huv
      rw [sendCorrectionDms_cons, sendCorrectionDms_not_mem dmOk data now rest _
        uid hur, if_pos hdm]
      exact lookupPendingDm_set_self s uid _ data now

theorem sendCorrectionDms_undelivered (dmOk : String → Bool)
    (data : CorrectionData) (now : Int) :
    ∀ (L : List String) (s : DmState) (uid : String), dmOk uid = false →
      lookupPendingDm (sendCorrectionDms s dmOk L data now) uid =
        lookupPendingDm s uid := by
  intro L
  induction L with
  | nil => exact fun s uid _ => rfl
  | cons v rest ih =>
    intro s uid hdm
    rw [sendCorrectionDms_cons, ih _ uid hdm]
    by_cases huv : uid = v
    · subst huv
      rw [if_neg (by rw [hdm]; exact Bool.false_ne_true)]
    · by_cases hdv : dmOk v = true
      · rw [if_pos hdv, lookupPendingDm_set_other s v _ data now uid huv]
      · rw [if_neg hdv]

/-- C3 (counterexample): for a knowledge-area answer with a responding
owner ("resp1") whose area lead is a different user ("lead1"), the
correction job opens the Pending Action for the lead and none for the
responder — the candidate approvers are not "the distinct responders if
any". -/
theorem handleFaqCorrection_ignores_responders :
    specCandidateApprovers taArea (getLeadUserIds [areaX] ("areaX"))
        = [("resp1")]
    ∧ lookupPendingDm
        (handleFaqCorrection dmEmpty cfg0 [areaX] (fun _ => none)
          (fun _ => true) taArea ("new text") ("Area X") none 0)
        ("resp1") = none
    ∧ (lookupPendingDm
        (handleFaqCorrection dmEmpty cfg0 [areaX] (fun _ => none)
          (fun _ => true) taArea ("new text") ("Area X") none 0)
        ("lead1")).map PendingDm.intent = some ("faq_correction_approval") := by
  refine ⟨?_, ?_, ?_⟩ <;> decide

/-- C3 (amended): when the correction job detects a correction, it opens
one "faq_correction_approval" Pending Action — carrying the correction id
(the tracked answer's id), the matched block reference, the proposed text
and context — per candidate approver to whom the direct message was
delivered; for a general-FAQ answer the candidate approvers are the
responding owners if any exist, else the configured admin fallback group,
while for a knowledge-area answer they are the area's lead users
(regardless of who responded); with the area deleted nothing is opened,
and users whose DM delivery fails get no Pending Action. -/
theorem handleFaqCorrection_recipients (s : DmState) (cfg : JobsConfig)
    (areas : List KnowledgeArea) (findBlock : String → Option BlockRef)
    (dmOk : String → Bool) (ta : FaqAnswer) (su areaName : String)
    (ch : Option String) (now : Int) :
    (ta.productAreaId = GENERAL_FAQ_AREA_ID →
      ∀ uid ∈ (if ta.respondingOwnerIds ≠ [] then ta.respondingOwnerIds
               else cfg.generalFaqAdminUserIds),
        dmOk uid = true →
        ∃ q, lookupPendingDm
            (handleFaqCorrection s cfg areas findBlock dmOk ta su areaName ch now)
            uid = some q
          ∧ q.intent = "faq_correction_approval"
          ∧ q.partialData.correctionId = ta.id
          ∧ q.partialData.suggestedUpdate = su
          ∧ q.partialData.originalQuestion = ta.originalQuestion
          ∧ q.partialData.areaName = areaName
          ∧ q.expiresAt = now + PENDING_DM_EXPIRY_MS)
    ∧ (¬ ta.productAreaId = GENERAL_FAQ_AREA_ID →
      ∀ area, getKnowledgeAreaById areas ta.productAreaId = some area →
      ∀ uid ∈ getLeadUserIds areas ta.productAreaId,
        dmOk uid = true →
        ∃ q, lookupPendingDm
            (handleFaqCorrection s cfg areas findBlock dmOk ta su areaName ch now)
            uid = some q
          ∧ q.intent = "faq_correction_approval"
          ∧ q.partialData.correctionId = ta.id
          ∧ q.partialData.suggestedUpdate = su
          ∧ q.partialData.originalQuestion = ta.originalQuestion
          ∧ q.partialData.areaName = areaName
          ∧ q.expiresAt = now + PENDING_DM_EXPIRY_MS)
    ∧ (¬ ta.productAreaId = GENERAL_FAQ_AREA_ID →
      getKnowledgeAreaById areas ta.productAreaId = none →
      handleFaqCorrection s cfg areas findBlock dmOk ta su areaName ch now = s)
    ∧ (∀ uid, dmOk uid = false →
      lookupPendingDm
          (handleFaqCorrection s cfg areas findBlock dmOk ta su areaName ch now)
          uid = lookupPendingDm s uid) := by
  refine ⟨?_, ?_, ?_, ?_⟩
  · intro hgen uid hmem hdm
    have hne : (if ta.respondingOwnerIds ≠ [] then ta.respondingOwnerIds
        else cfg.generalFaqAdminUserIds) ≠ [] := List.ne_nil_of_mem hmem
    unfold handleFaqCorrection
    dsimp only
    rw [if_pos hgen]
    cases hsub : (if ta.kbSourcePageIds ≠ [] ∧ ta.evidence ≠ [] then
        firstHit findBlock ta.kbSourcePageIds else none) with
    | none =>
      dsimp only
      rw [if_neg hne]
      exact ⟨_, sendCorrectionDms_mem dmOk _ now _ s uid hmem hdm,
        rfl, rfl, rfl, rfl, rfl, rfl⟩
    | some pb =>
      cases pb with
      | mk pg bi =>
        dsimp only
        rw [if_neg hne]
        exact ⟨_, sendCorrectionDms_mem dmOk _ now _ s uid hmem hdm,
          rfl, rfl, rfl, rfl, rfl, rfl⟩
  · intro hgen area harea uid hmem hdm
    have hne : getLeadUserIds areas ta.productAreaId ≠ [] :=
      List.ne_nil_of_mem hmem
    unfold handleFaqCorrection
    dsimp only
    rw [if_neg hgen, harea]
    dsimp only
    rw [if_neg hne]
    exact ⟨_, sendCorrectionDms_mem dmOk _ now _ s uid hmem hdm,
      rfl, rfl, rfl, rfl, rfl, rfl⟩
  · intro hgen harea
    unfold handleFaqCorrection
    dsimp only
    rw [if_neg hgen, harea]
  · intro uid hdm
    unfold handleFaqCorrection
    dsimp only
    by_cases hgen : ta.productAreaId = GENERAL_FAQ_AREA_ID
    · rw [if_pos hgen]
      cases hsub : (if ta.kbSourcePageIds ≠ [] ∧ ta.evidence ≠ [] then
          firstHit findBlock ta.kbSourcePageIds else none) with
      | none =>
        dsimp only
        by_cases hL : (if ta.respondingOwnerIds ≠ [] then ta.respondingOwnerIds
            else cfg.generalFaqAdminUserIds) = []
        · rw [if_pos hL]
        · rw [if_neg hL]
          exact sendCorrectionDms_undelivered dmOk _ now _ s uid hdm
      | some pb =>
        cases pb with
        | mk pg bi =>
          dsimp only
          by_cases hL : (if ta.respondingOwnerIds ≠ [] then ta.respondingOwnerIds
              else cfg.generalFaqAdminUserIds) = []
          · rw [if_pos hL]
          · rw [if_neg hL]
            exact sendCorrectionDms_undelivered dmOk _ now _ s uid hdm
    · rw [if_neg hgen]
      cases harea : getKnowledgeAreaById areas ta.productAreaId with
      | none => rfl
      | some area =>
        dsimp only
        by_cases hL : getLeadUserIds areas ta.productAreaId = []
        · rw [if_pos hL]
        · rw [if_neg hL]
          exact sendCorrectionDms_undelivered dmOk _ now _ s uid hdm

/-- C3 witness: a general-FAQ correction with one responding owner opens
that responder's Pending Action carrying the answer's id as correction
id. -/
theorem handleFaqCorrection_recipients_witness :
    ∃ q, lookupPendingDm
        (handleFaqCorrection dmEmpty cfg0 [areaX] (fun _ => none)
          (fun _ => true) taGeneral ("new text") ("General FAQ") none 0)
        ("resp1") = some q
      ∧ q.intent = "faq_correction_approval"
      ∧ q.partialData.correctionId = taGeneral.id
      ∧ q.partialData.suggestedUpdate = "new text"
      ∧ q.partialData.originalQuestion = taGeneral.originalQuestion
      ∧ q.partialData.areaName = "General FAQ"
      ∧ q.expiresAt = 0 + PENDING_DM_EXPIRY_MS :=
  (handleFaqCorrection_recipients dmEmpty cfg0 [areaX] (fun _ => none)
    (fun _ => true) taGeneral ("new text") ("General FAQ") none 0).1
    rfl ("resp1") (by decide) rfl

/-! ### Block-matcher lemmas -/

theorem forest_ind (motive : List NBlock → Prop) (h1 : motive [])
    (h2 : ∀ i t cs rest, motive cs → motive rest →
      motive (NBlock.mk i t cs :: rest)) :
    ∀ bs, motive bs
  | [] => h1
  | NBlock.mk i t cs :: rest =>
    h2 i t cs rest (forest_ind motive h1 h2 cs) (forest_ind motive h1 h2 rest)
termination_by bs => sizeOf bs
decreasing_by all_goals (simp <;> omega)

theorem treeHasMatch_mk (sts : List String) (i t : String) (cs : List NBlock) :
    treeHasMatch sts (NBlock.mk i t cs) =
      if t = "" then false
      else (sts.any (fun st => strIncludes (normalizeText t) st))
           || forestHasMatch sts cs := rfl

theorem forestHasMatch_cons (sts : List String) (b : NBlock) (rest : List NBlock) :
    forestHasMatch sts (b :: rest) =
      (treeHasMatch sts b || forestHasMatch sts rest) := rfl

theorem scanForest_cons (sts : List String) (b : NBlock) (rest : List NBlock)
    (acc : Option MatchResult × Score) :
    scanForest sts (b :: rest) acc =
      scanForest sts rest (scanBlockStep sts b acc) := rfl

theorem allBlocks_cons (i t : String) (cs : List NBlock) (rest : List NBlock) :
    allBlocks (NBlock.mk i t cs :: rest) =
      NBlock.mk i t cs :: (allBlocks cs ++ allBlocks rest) := rfl

theorem considerBlock_no_match (bid bt nbt : String) (sts : List String)
    (h : ∀ st ∈ sts, strIncludes nbt st = false) :
    ∀ acc, considerBlock bid bt nbt sts acc = acc := by
  induction sts with
  | nil => exact fun acc => rfl
  | cons st rest ih =>
    intro acc
    have hst := h st (List.mem_cons_self st rest)
    have hrest : ∀ x ∈ rest, strIncludes nbt x = false :=
      fun x hx => h x (List.mem_cons_of_mem st hx)
    show considerBlock bid bt nbt rest
        (if strIncludes nbt st = true then _ else acc) = acc
    rw [if_neg (by rw [hst]; exact Bool.false_ne_true)]
    exact ih hrest acc

theorem considerBlock_some_pres (bid bt nbt : String) (sts : List String) :
    ∀ acc : Option MatchResult × Score, acc.1.isSome →
      (considerBlock bid bt nbt sts acc).1.isSome := by
  induction sts with
  | nil => exact fun acc h => h
  | cons st rest ih =>
    intro acc h
    show (considerBlock bid bt nbt rest _).1.isSome
    apply ih
    dsimp only
    by_cases hst : strIncludes nbt st = true
    · rw [if_pos hst]
      by_cases hsc : scoreGt (st.length, nbt.length) acc.2 = true
      · rw [if_pos hsc]
        rfl
      · rw [if_neg hsc]
        exact h
    · rw [if_neg hst]
      exact h

theorem considerBlock_none_eq (bid bt nbt : String) (sts : List String) :
    ∀ acc : Option MatchResult × Score,
      (considerBlock bid bt nbt sts acc).1 = none →
      considerBlock bid bt nbt sts acc = acc := by
  induction sts with
  | nil => exact fun acc _ => rfl
  | cons st rest ih =>
    intro acc hnone
    by_cases hst : strIncludes nbt st = true
    · by_cases hsc : scoreGt (st.length, nbt.length) acc.2 = true
      · exfalso
        have h1 : considerBlock bid bt nbt (st :: rest) acc =
            considerBlock bid bt nbt rest
              (some { blockId := bid, matchedText := bt, searchText := st },
               (st.length, nbt.length)) := by
          show considerBlock bid bt nbt rest
              (if strIncludes nbt st = true then _ else acc) = _
          rw [if_pos hst, if_pos hsc]
        rw [h1] at hnone
        have := considerBlock_some_pres bid bt nbt rest
          (some { blockId := bid, matchedText := bt, searchText := st },
           (st.length, nbt.length)) rfl
        rw [hnone] at this
        exact Bool.false_ne_true this
      · have h1 : considerBlock bid bt nbt (st :: rest) acc =
            considerBlock bid bt nbt rest acc := by
          show considerBlock bid bt nbt rest
              (if strIncludes nbt st = true then _ else acc) = _
          rw [if_pos hst, if_neg hsc]
        rw [h1] at hnone ⊢
        exact ih acc hnone
    · have h1 : considerBlock bid bt nbt (st :: rest) acc =
          considerBlock bid bt nbt rest acc := by
        show considerBlock bid bt nbt rest
            (if strIncludes nbt st = true then _ else acc) = _
        rw [if_neg hst]
      rw [h1] at hnone ⊢
      exact ih acc hnone

theorem strLength_pos (st : String) (h : st ≠ "") : 0 < st.length := by
  cases st with
  | mk data =>
    cases data with
    | nil => exact absurd rfl h
    | cons c cs => simp [String.length]

theorem considerBlock_match_some (bid bt nbt : String) (sts : List String) :
    ∀ acc : Option MatchResult × Score, (acc.1 = none → acc.2 = zeroScore) →
      (∃ st ∈ sts, strIncludes nbt st = true ∧ st ≠ "") →
      (considerBlock bid bt nbt sts acc).1.isSome := by
  induction sts with
  | nil =>
    intro acc _ h
    obtain ⟨st, hst, _⟩ := h
    exact absurd hst (List.not_mem_nil st)
  | cons st0 rest ih =>
    intro acc hinv hex
    cases hacc : acc.1 with
    | some v =>
      exact considerBlock_some_pres bid bt nbt (st0 :: rest) acc
        (by rw [hacc]; rfl)
    | none =>
      have hz : acc.2 = zeroScore := hinv hacc
      obtain ⟨st, hst, hinc, hne⟩ := hex
      rcases List.mem_cons.mp hst with heq | hmem
      · subst heq
        have h1 : considerBlock bid bt nbt (st :: rest) acc =
            considerBlock bid bt nbt rest
              (some { blockId := bid, matchedText := bt, searchText := st },
               (st.length, nbt.length)) := by
          show considerBlock bid bt nbt rest
              (if strIncludes nbt st = true then _ else acc) = _
          rw [if_pos hinc, if_pos]
          rw [hz]
          show decide (st.length * 1 > 0 * nbt.length) = true
          simp [strLength_pos st hne]
        rw [h1]
        exact considerBlock_some_pres bid bt nbt rest _ rfl
      · have hinv2 : ∀ a : Option MatchResult × Score,
            (a.1 = none → a.2 = zeroScore) →
            ((if strIncludes nbt st0 = true then
                (if scoreGt (st0.length, nbt.length) a.2 = true then
                  (some { blockId := bid, matchedText := bt, searchText := st0 },
                   (st0.length, nbt.length))
                 else a)
              else a).1 = none →
             (if strIncludes nbt st0 = true then
                (if scoreGt (st0.length, nbt.length) a.2 = true then
                  (some { blockId := bid, matchedText := bt, searchText := st0 },
                   (st0.length, nbt.length))
                 else a)
              else a).2 = zeroScore) := by
          intro a ha
          by_cases h1 : strIncludes nbt st0 = true
          · by_cases h2 : scoreGt (st0.length, nbt.length) a.2 = true
            · rw [if_pos h1, if_pos h2]
              intro hc
              exact absurd hc (by simp)
            · rw [if_pos h1, if_neg h2]
              exact ha
          · rw [if_neg h1]
            exact ha
        exact ih _ (hinv2 acc hinv) ⟨st, hmem, hinc, hne⟩

theorem scanBlockStep_eq (sts : List String) (i t : String) (cs : List NBlock)
    (acc : Option MatchResult × Score) :
    scanBlockStep sts (NBlock.mk i t cs) acc =
      if t = "" then acc
      else
        let nbt := normalizeText t
        let acc2 := considerBlock i t nbt sts acc
        if cs.isEmpty then acc2
        else
          match (scanForest sts cs (none, zeroScore)).1 with
          | some cr =>
            if scoreGt childScore acc2.2 then
              (some { blockId := i, matchedText := cr.matchedText,
                      searchText := cr.searchText }, childScore)
            else acc2
          | none => acc2 := rfl

theorem scanBlockStep_some_pres (sts : List String) (b : NBlock)
    (acc : Option MatchResult × Score) (h : acc.1.isSome) :
    (scanBlockStep sts b acc).1.isSome := by
  cases b with
  | mk i t cs =>
    rw [scanBlockStep_eq]
    by_cases ht : t = ""
    · rw [if_pos ht]
      exact h
    · rw [if_neg ht]
      dsimp only
      have hacc2 := considerBlock_some_pres i t (normalizeText t) sts acc h
      by_cases hemp : cs.isEmpty = true
      · rw [if_pos hemp]
        exact hacc2
      · rw [if_neg hemp]
        cases hcr : (scanForest sts cs (none, zeroScore)).1 with
        | none => exact hacc2
        | some cr =>
          dsimp only
          by_cases hsc :
              scoreGt childScore (considerBlock i t (normalizeText t) sts acc).2
                = true
          · rw [if_pos hsc]
            rfl
          · rw [if_neg hsc]
            exact hacc2

theorem scanBlockStep_none_eq (sts : List String) (b : NBlock)
    (acc : Option MatchResult × Score)
    (h : (scanBlockStep sts b acc).1 = none) :
    scanBlockStep sts b acc = acc := by
  cases b with
  | mk i t cs =>
    rw [scanBlockStep_eq] at h ⊢
    by_cases ht : t = ""
    · rw [if_pos ht]
    · rw [if_neg ht] at h ⊢
      dsimp only at h ⊢
      by_cases hemp : cs.isEmpty = true
      · rw [if_pos hemp] at h ⊢
        exact considerBlock_none_eq i t (normalizeText t) sts acc h
      · rw [if_neg hemp] at h ⊢
        cases hcr : (scanForest sts cs (none, zeroScore)).1 with
        | none =>
          rw [hcr] at h
          dsimp only at h ⊢
          exact considerBlock_none_eq i t (normalizeText t) sts acc h
        | some cr =>
          rw [hcr] at h
          dsimp only at h ⊢
          by_cases hsc :
              scoreGt childScore (considerBlock i t (normalizeText t) sts acc).2
                = true
          · rw [if_pos hsc] at h
            exact absurd h (by simp)
          · rw [if_neg hsc] at h ⊢
            exact considerBlock_none_eq i t (normalizeText t) sts acc h

theorem scanBlockStep_inv (sts : List String) (b : NBlock)
    (acc : Option MatchResult × Score)
    (hinv : acc.1 = none → acc.2 = zeroScore) :
    (scanBlockStep sts b acc).1 = none → (scanBlockStep sts b acc).2 = zeroScore := by
  intro hn
  have he := scanBlockStep_none_eq sts b acc hn
  rw [he] at hn ⊢
  exact hinv hn

theorem scanForest_some_pres (sts : List String) :
    ∀ (bs : List NBlock) (acc : Option MatchResult × Score), acc.1.isSome →
      (scanForest sts bs acc).1.isSome := by
  intro bs
  induction bs with
  | nil => exact fun acc h => h
  | cons b rest ih =>
    intro acc h
    rw [scanForest_cons]
    exact ih _ (scanBlockStep_some_pres sts b acc h)

theorem scanForest_no_match (sts : List String) :
    ∀ bs, forestHasMatch sts bs = false →
      ∀ acc, scanForest sts bs acc = acc := by
  apply forest_ind
    (motive := fun bs => forestHasMatch sts bs = false →
      ∀ acc, scanForest sts bs acc = acc)
  · exact fun _ acc => rfl
  · intro i t cs rest ihc ihr h acc
    rw [forestHasMatch_cons] at h
    obtain ⟨htree, hrest⟩ := Bool.or_eq_false_iff.mp h
    rw [scanForest_cons, ihr hrest]
    rw [scanBlockStep_eq]
    by_cases ht : t = ""
    · rw [if_pos ht]
    · rw [if_neg ht]
      dsimp only
      rw [treeHasMatch_mk, if_neg ht] at htree
      obtain ⟨hany, hcs⟩ := Bool.or_eq_false_iff.mp htree
      have hnoinc : ∀ st ∈ sts, strIncludes (normalizeText t) st = false := by
        intro st hst
        have := List.any_eq_false.mp hany st hst
        exact Bool.not_eq_true _ ▸ (by simpa using this)
      rw [considerBlock_no_match i t (normalizeText t) sts hnoinc acc]
      by_cases hemp : cs.isEmpty = true
      · rw [if_pos hemp]
      · rw [if_neg hemp, ihc hcs (none, zeroScore)]

theorem scanForest_complete (sts : List String)
    (hsts : ∀ st ∈ sts, st ≠ "") :
    ∀ bs, forestHasMatch sts bs = true →
      ∀ acc, (acc.1 = none → acc.2 = zeroScore) →
      (scanForest sts bs acc).1.isSome := by
  apply forest_ind
    (motive := fun bs => forestHasMatch sts bs = true →
      ∀ acc, (acc.1 = none → acc.2 = zeroScore) → (scanForest sts bs acc).1.isSome)
  · intro h
    exact absurd h (by simp [forestHasMatch])
  · intro i t cs rest ihc ihr h acc hinv
    rw [scanForest_cons]
    rw [forestHasMatch_cons] at h
    cases hrest : forestHasMatch sts rest with
    | true => exact ihr hrest _ (scanBlockStep_inv sts _ acc hinv)
    | false =>
      have htree : treeHasMatch sts (NBlock.mk i t cs) = true := by
        rw [hrest] at h
        simpa using h
      apply scanForest_some_pres
      rw [treeHasMatch_mk] at htree
      by_cases ht : t = ""
      · rw [if_pos ht] at htree
        exact absurd htree (by simp)
      · rw [if_neg ht] at htree
        rw [scanBlockStep_eq, if_neg ht]
        dsimp only
        rcases Bool.or_eq_true_iff.mp htree with hany | hcs
        · obtain ⟨st, hst, hp⟩ := List.any_eq_true.mp hany
          have hex : ∃ st ∈ sts,
              strIncludes (normalizeText t) st = true ∧ st ≠ "" :=
            ⟨st, hst, by simpa using hp, hsts st hst⟩
          have hacc2 := considerBlock_match_some i t (normalizeText t) sts acc
            hinv hex
          by_cases hemp : cs.isEmpty = true
          · rw [if_pos hemp]
            exact hacc2
          · rw [if_neg hemp]
            cases hcr : (scanForest sts cs (none, zeroScore)).1 with
            | none => exact hacc2
            | some cr =>
              dsimp only
              by_cases hsc :
                  scoreGt childScore
                    (considerBlock i t (normalizeText t) sts acc).2 = true
              · rw [if_pos hsc]
                rfl
              · rw [if_neg hsc]
                exact hacc2
        · have hemp : cs.isEmpty = false := by
            cases cs with
            | nil => exact absurd hcs (by simp [forestHasMatch])
            | cons c crest => rfl
          rw [if_neg (by rw [hemp]; exact Bool.false_ne_true)]
          have hchild := ihc hcs (none, zeroScore) (fun _ => rfl)
          obtain ⟨cr, hcr⟩ := Option.isSome_iff_exists.mp hchild
          rw [hcr]
          dsimp only
          by_cases hsc :
              scoreGt childScore
                (considerBlock i t (normalizeText t) sts acc).2 = true
          · rw [if_pos hsc]
            rfl
          · rw [if_neg hsc]
            cases hacc2 : (considerBlock i t (normalizeText t) sts acc).1 with
            | some v => rfl
            | none =>
              exfalso
              apply hsc
              have he := considerBlock_none_eq i t (normalizeText t) sts acc hacc2
              rw [he] at hacc2 ⊢
              rw [hinv hacc2]
              decide

theorem scanForest_append (sts : List String) :
    ∀ (l1 l2 : List NBlock) (acc : Option MatchResult × Score),
      scanForest sts (l1 ++ l2) acc = scanForest sts l2 (scanForest sts l1 acc) := by
  intro l1
  induction l1 with
  | nil => exact fun l2 acc => rfl
  | cons b rest ih =>
    intro l2 acc
    rw [List.cons_append, scanForest_cons, scanForest_cons, ih]

theorem scanForest_nested (sts : List String) (hsts : ∀ st ∈ sts, st ≠ "")
    (pre post : List NBlock) (i t : String) (cs : List NBlock)
    (hpre : forestHasMatch sts pre = false)
    (hpost : forestHasMatch sts post = false)
    (ht : ¬ t = "")
    (hdirect : ∀ st ∈ sts, strIncludes (normalizeText t) st = false)
    (hchild : forestHasMatch sts cs = true) :
    ∃ r, (scanForest sts (pre ++ NBlock.mk i t cs :: post) (none, zeroScore)).1
        = some r ∧ r.blockId = i := by
  rw [scanForest_append, scanForest_no_match sts pre hpre, scanForest_cons]
  rw [scanBlockStep_eq, if_neg ht]
  dsimp only
  rw [considerBlock_no_match i t (normalizeText t) sts hdirect]
  have hemp : cs.isEmpty = false := by
    cases cs with
    | nil => exact absurd hchild (by simp [forestHasMatch])
    | cons c crest => rfl
  rw [if_neg (by rw [hemp]; exact Bool.false_ne_true)]
  have hchildSome := scanForest_complete sts hsts cs hchild (none, zeroScore)
    (fun _ => rfl)
  obtain ⟨cr, hcr⟩ := Option.isSome_iff_exists.mp hchildSome
  rw [hcr]
  dsimp only
  rw [if_pos (by decide)]
  rw [scanForest_no_match sts post hpost]
  exact ⟨_, rfl, rfl⟩

theorem forestHasMatch_of_no_includes (sts : List String) :
    ∀ bs, (∀ b ∈ allBlocks bs, ∀ st ∈ sts,
        strIncludes (normalizeText b.text) st = false) →
      forestHasMatch sts bs = false := by
  apply forest_ind
    (motive := fun bs => (∀ b ∈ allBlocks bs, ∀ st ∈ sts,
      strIncludes (normalizeText b.text) st = false) →
      forestHasMatch sts bs = false)
  · exact fun _ => rfl
  · intro i t cs rest ihc ihr h
    rw [forestHasMatch_cons, Bool.or_eq_false_iff]
    constructor
    · rw [treeHasMatch_mk]
      by_cases ht : t = ""
      · rw [if_pos ht]
      · rw [if_neg ht, Bool.or_eq_false_iff]
        constructor
        · rw [List.any_eq_false]
          intro st hst
          have hself := h (NBlock.mk i t cs)
            (by rw [allBlocks_cons]; exact List.mem_cons_self _ _) st hst
          simpa using hself
        · apply ihc
          intro b hb st hst
          exact h b
            (by rw [allBlocks_cons]
                exact List.mem_cons_of_mem _ (List.mem_append_left _ hb)) st hst
    · apply ihr
      intro b hb st hst
      exact h b
        (by rw [allBlocks_cons]
            exact List.mem_cons_of_mem _ (List.mem_append_right _ hb)) st hst

/-- C9 (confirmed): `findBlockByContent` returns null when no normalized
snippet is contained in the normalized text of any block of the page
(nested blocks included); and when the only matching block sits nested
under a top-level block — at any depth — the result carries the enclosing
top-level block's id, not the nested block's. -/
theorem findBlockByContent_contract (blocks : List NBlock)
    (searchTexts : List String) :
    ((∀ b ∈ allBlocks blocks,
        ∀ st ∈ (searchTexts.map normalizeText).filter (fun s => s ≠ ""),
          strIncludes (normalizeText b.text) st = false) →
      findBlockByContent blocks searchTexts = none)
    ∧ (∀ (pre post : List NBlock) (i t : String) (cs : List NBlock),
      blocks = pre ++ NBlock.mk i t cs :: post →
      (searchTexts.map normalizeText).filter (fun s => s ≠ "") ≠ [] →
      forestHasMatch ((searchTexts.map normalizeText).filter (fun s => s ≠ ""))
          pre = false →
      forestHasMatch ((searchTexts.map normalizeText).filter (fun s => s ≠ ""))
          post = false →
      ¬ t = "" →
      (∀ st ∈ (searchTexts.map normalizeText).filter (fun s => s ≠ ""),
        strIncludes (normalizeText t) st = false) →
      forestHasMatch ((searchTexts.map normalizeText).filter (fun s => s ≠ ""))
          cs = true →
      ∃ r, findBlockByContent blocks searchTexts = some r ∧ r.blockId = i) := by
  constructor
  · intro h
    unfold findBlockByContent
    by_cases hn : (searchTexts.map normalizeText).filter (fun s => s ≠ "") = []
    · rw [if_pos hn]
    · rw [if_neg hn]
      rw [scanForest_no_match _ blocks (forestHasMatch_of_no_includes _ blocks h)]
  · intro pre post i t cs hsplit hne hpre hpost ht hdirect hchild
    have hsts : ∀ st ∈ (searchTexts.map normalizeText).filter (fun s => s ≠ ""),
        st ≠ "" := by
      intro st hst
      have := List.mem_filter.mp hst
      simpa using this.2
    unfold findBlockByContent
    rw [if_neg hne, hsplit]
    exact scanForest_nested _ hsts pre post i t cs hpre hpost ht hdirect hchild

/-- C9 witness: the snippet "THE  Answer IS 42" (matching only a leaf two
levels below the top-level block "top") makes the matcher return the
top-level block's id; a snippet matching nothing returns null. -/
theorem findBlockByContent_contract_witness :
    (∃ r, findBlockByContent [topB, otherTopB] [("THE  Answer IS 42")] = some r
        ∧ r.blockId = "top")
    ∧ findBlockByContent [topB, otherTopB] [("zebra")] = none := by
  constructor
  · exact (findBlockByContent_contract [topB, otherTopB]
      [("THE  Answer IS 42")]).2 [] [otherTopB] ("top") ("top section") [midB]
      rfl (by decide) (by decide) (by decide) (by decide) (by decide)
      (by decide)
  · exact (findBlockByContent_contract [topB, otherTopB] [("zebra")]).1
      (by decide)

end KnowledgeLoop
